import Mathlib

/-!
Verification of the sync-engine core (filesystem name handling, sync-node
cache serialization, index invariants, notification intake) against a shallow
embedding of the C++ sources in `src/filesystem.cpp` and `src/node.cpp`.

Byte strings (`std::string`) are embedded as `List Nat`, each element one
byte; machine integers are `Nat` or `Int` with explicit reductions modulo
powers of two where the source relies on fixed-width behaviour.
-/

namespace MegaSync

/-- Filesystem families distinguished by `FileSystemType` (filesystem.cpp). -/
inductive FileSystemType where
  | FS_NTFS
  | FS_EXFAT
  | FS_FAT32
  | FS_EXT
  | FS_HFS
  | FS_APFS
  | FS_DEFAULT
deriving DecidableEq, Fintype

/-- Embedding of `FileSystemAccess::captimestamp` (filesystem.cpp): clamp a
timestamp to the interval from 0 to the largest 32-bit unsigned value. -/
def captimestamp (t : Int) : Int :=
  if t > 4294967295 then 4294967295
  else if t < 0 then 0
  else t

/-- Embedding of `FileSystemAccess::islchex` (filesystem.cpp): whether a byte
is a lower-case hexadecimal digit character. -/
def islchex (c : Nat) : Bool :=
  decide ((48 ≤ c ∧ c ≤ 57) ∨ (97 ≤ c ∧ c ≤ 102))

/-- The bytes of the C literal given to `strchr` in the FAT32 arm of
`islocalfscompatible`, plus 0: `strchr` also matches the terminating NUL of
its first argument, so byte 0 is reported incompatible as well. -/
def fat32Incompatible : List Nat := [92, 47, 58, 63, 34, 60, 62, 124, 42, 43, 44, 46, 59, 61, 91, 93, 0]

/-- The bytes of the C literal given to `strchr` in the ExFAT, NTFS and
default arms of `islocalfscompatible`, plus 0 for the terminating NUL. -/
def ntfsIncompatible : List Nat := [92, 47, 58, 63, 34, 60, 62, 124, 42, 0]

/-- Embedding of `FileSystemAccess::islocalfscompatible` (filesystem.cpp):
whether byte `c` is allowed in a name on the given filesystem family. -/
def islocalfscompatible (fs : FileSystemType) (c : Nat) : Bool :=
  match fs with
  | .FS_APFS | .FS_HFS => decide (c ≠ 58)
  | .FS_EXT => decide (c ≠ 0) && decide (c ≠ 47)
  | .FS_FAT32 => decide (c ∉ fat32Incompatible)
  | .FS_EXFAT | .FS_NTFS | .FS_DEFAULT => decide (c ∉ ntfsIncompatible)

/-- Modelled from the spec: `Utils::utf8SequenceSize` is used but not defined
in the provided sources. The spec's escape rule distinguishes single-byte
characters from longer UTF-8 sequences, so the size is read off the UTF-8
lead-byte patterns; a byte fitting no pattern is treated as a literal single
byte, which also satisfies the assertion in `escapefsincompatible` that the
size is never zero. -/
def utf8SequenceSize (c : Nat) : Nat :=
  if c ≤ 127 then 1
  else if 192 ≤ c ∧ c ≤ 223 then 2
  else if 224 ≤ c ∧ c ≤ 239 then 3
  else if 240 ≤ c ∧ c ≤ 247 then 4
  else 1

/-- One lower-case hexadecimal digit character, as produced for a nibble by
the `sprintf` format used in `escapefsincompatible`. -/
def hexdig (n : Nat) : Nat := if n < 10 then 48 + n else 87 + n

/-- Termination cost of one byte for the escape loop: an incompatible byte is
replaced by three bytes of which the loop rescans the final two. -/
def escCost (fs : FileSystemType) (c : Nat) : Nat :=
  if islocalfscompatible fs (c % 256) then 1 else 3

/-- Termination measure for the escape loop. -/
def escWeight (fs : FileSystemType) (s : List Nat) : Nat :=
  (s.map (escCost fs)).sum

theorem escWeight_cons (fs : FileSystemType) (c : Nat) (s : List Nat) :
    escWeight fs (c :: s) = escCost fs c + escWeight fs s := by
  simp [escWeight]

theorem one_le_escCost (fs : FileSystemType) (c : Nat) : 1 ≤ escCost fs c := by
  unfold escCost
  split <;> omega

theorem sum_drop_le (l : List Nat) (k : Nat) : (l.drop k).sum ≤ l.sum := by
  induction l generalizing k with
  | nil => simp
  | cons a t ih =>
    cases k with
    | zero => simp
    | succ k =>
      simp only [List.drop_succ_cons, List.sum_cons]
      exact le_trans (ih k) (Nat.le_add_left _ _)

theorem escWeight_drop_le (fs : FileSystemType) (s : List Nat) (k : Nat) :
    escWeight fs (s.drop k) ≤ escWeight fs s := by
  unfold escWeight
  rw [List.map_drop]
  exact sum_drop_le _ _

theorem islchex_range {c : Nat} (h : islchex c = true) :
    (48 ≤ c ∧ c ≤ 57) ∨ (97 ≤ c ∧ c ≤ 102) := by
  unfold islchex at h
  exact of_decide_eq_true h

theorem islchex_compat (fs : FileSystemType) {c : Nat} (h : islchex c = true) :
    islocalfscompatible fs c = true := by
  have hr := islchex_range h
  cases fs
  all_goals {
    simp [islocalfscompatible, fat32Incompatible, ntfsIncompatible]
    omega
  }

theorem islchex_hexdig {n : Nat} (h : n < 16) : islchex (hexdig n) = true := by
  unfold islchex hexdig
  rw [decide_eq_true_iff]
  split <;> omega

theorem hexdig_lt {n : Nat} (h : n < 16) : hexdig n < 256 := by
  unfold hexdig
  split <;> omega

theorem escCost_hexdig (fs : FileSystemType) {n : Nat} (h : n < 16) :
    escCost fs (hexdig n) = 1 := by
  unfold escCost
  rw [Nat.mod_eq_of_lt (hexdig_lt h)]
  rw [islchex_compat fs (islchex_hexdig h)]
  rfl

theorem escCost_incompat (fs : FileSystemType) {c : Nat}
    (h : islocalfscompatible fs (c % 256) = false) : escCost fs c = 3 := by
  unfold escCost
  rw [h]
  rfl

/-- Embedding of the scanning loop of `FileSystemAccess::escapefsincompatible`
(filesystem.cpp). The loop replaces an incompatible single byte at the current
position by three bytes (percent, hex, hex) and then advances one position, so
the two freshly inserted hex digits are themselves scanned next; that is
modelled by pushing them onto the unscanned remainder. The byte is read
through a cast to unsigned char, hence the reductions modulo 256. -/
def escGo (fs : FileSystemType) : List Nat → List Nat
  | [] => []
  | c :: rest =>
    if h : utf8SequenceSize (c % 256) = 1 ∧ islocalfscompatible fs (c % 256) = false then
      37 :: escGo fs (hexdig (c % 256 / 16) :: hexdig (c % 256 % 16) :: rest)
    else
      (c :: rest.take (utf8SequenceSize (c % 256) - 1)) ++
        escGo fs (rest.drop (utf8SequenceSize (c % 256) - 1))
termination_by s => escWeight fs s
decreasing_by
  · rw [escWeight_cons, escWeight_cons, escWeight_cons]
    rw [escCost_hexdig fs (by omega : c % 256 / 16 < 16)]
    rw [escCost_hexdig fs (by omega : c % 256 % 16 < 16)]
    rw [escCost_incompat fs h.2]
    omega
  · rw [escWeight_cons]
    have h1 := escWeight_drop_le fs rest (utf8SequenceSize (c % 256) - 1)
    have h2 := one_le_escCost fs c
    omega

/-- Embedding of `FileSystemAccess::escapefsincompatible` (filesystem.cpp):
the two self-referential names are rewritten in full before the byte scan. -/
def escapefsincompatible (fs : FileSystemType) (name : List Nat) : List Nat :=
  if name = [46, 46] then [37, 50, 101, 37, 50, 101]
  else if name = [46] then [37, 50, 101]
  else escGo fs name

/-- Spec-side description for C1: the segmentation of a byte string into
UTF-8 sequences, each segment headed by a lead byte and truncated at the end
of the string. -/
def utf8Segments : List Nat → List (List Nat)
  | [] => []
  | c :: rest =>
    (c :: rest.take (utf8SequenceSize (c % 256) - 1)) ::
      utf8Segments (rest.drop (utf8SequenceSize (c % 256) - 1))
termination_by s => s.length
decreasing_by
  simp only [List.length_cons, List.length_drop]
  omega

/-- Spec-side description for C1: a single-byte character forbidden by the
family becomes percent followed by its lower-case hex code; every other
segment is kept unchanged. -/
def escSeg (fs : FileSystemType) (seg : List Nat) : List Nat :=
  match seg with
  | [c] =>
    if utf8SequenceSize (c % 256) = 1 ∧ islocalfscompatible fs (c % 256) = false then
      [37, hexdig (c % 256 / 16), hexdig (c % 256 % 16)]
    else [c]
  | _ => seg

theorem utf8SequenceSize_of_islchex {c : Nat} (h : islchex c = true) :
    utf8SequenceSize c = 1 := by
  have hr := islchex_range h
  unfold utf8SequenceSize
  split
  · rfl
  · omega

theorem escGo_hex_cons (fs : FileSystemType) {d : Nat} (hd : islchex d = true)
    (t : List Nat) : escGo fs (d :: t) = d :: escGo fs t := by
  have h256 : d % 256 = d := Nat.mod_eq_of_lt (by rcases islchex_range hd with h | h <;> omega)
  rw [escGo]
  rw [dif_neg]
  · simp [h256, utf8SequenceSize_of_islchex hd]
  · rw [h256, islchex_compat fs hd]
    simp [utf8SequenceSize_of_islchex hd]

theorem escGo_eq_join (fs : FileSystemType) :
    ∀ (N : Nat) (s : List Nat), s.length ≤ N →
      escGo fs s = ((utf8Segments s).map (escSeg fs)).flatten := by
  intro N
  induction N with
  | zero =>
    intro s hs
    rw [List.length_eq_zero.mp (Nat.le_zero.mp hs)]
    simp [escGo, utf8Segments]
  | succ N ih =>
    intro s hs
    match s with
    | [] => simp [escGo, utf8Segments]
    | c :: rest =>
      rw [utf8Segments]
      by_cases hc : utf8SequenceSize (c % 256) = 1 ∧ islocalfscompatible fs (c % 256) = false
      · rw [escGo, dif_pos hc]
        rw [escGo_hex_cons fs (islchex_hexdig (by omega : c % 256 / 16 < 16))]
        rw [escGo_hex_cons fs (islchex_hexdig (by omega : c % 256 % 16 < 16))]
        have hrest : rest.length ≤ N := by
          simpa using Nat.lt_succ_iff.mp (lt_of_lt_of_le (by simp) hs)
        rw [ih rest hrest]
        rw [hc.1]
        simp [escSeg, hc]
      · rw [escGo, dif_neg hc]
        have hdrop : (rest.drop (utf8SequenceSize (c % 256) - 1)).length ≤ N := by
          have : rest.length ≤ N := by
            simpa using Nat.lt_succ_iff.mp (lt_of_lt_of_le (by simp) hs)
          simp only [List.length_drop]
          omega
        rw [ih _ hdrop]
        simp only [List.map_cons, List.flatten]
        congr 1
        rcases htake : rest.take (utf8SequenceSize (c % 256) - 1) with _ | ⟨a, t2⟩
        · simp [escSeg, hc]
        · simp [escSeg]

/-- C1: for every name and filesystem family, `escapefsincompatible` rewrites
each single-byte character that the family forbids into percent followed by
the lower-case hex code of that byte, leaves every other byte (including
multi-byte UTF-8 sequences) unchanged, and maps the exact names dot and
dot-dot in full to their escaped forms. -/
theorem escapefsincompatible_spec (fs : FileSystemType) (name : List Nat) :
    (name ≠ [46] → name ≠ [46, 46] →
      escapefsincompatible fs name = ((utf8Segments name).map (escSeg fs)).flatten) ∧
    escapefsincompatible fs [46] = [37, 50, 101] ∧
    escapefsincompatible fs [46, 46] = [37, 50, 101, 37, 50, 101] := by
  refine ⟨fun h1 h2 => ?_, by simp [escapefsincompatible], by simp [escapefsincompatible]⟩
  unfold escapefsincompatible
  rw [if_neg h2, if_neg h1]
  exact escGo_eq_join fs name.length name le_rfl

/-- Instantiation of `escapefsincompatible_spec` on a concrete name (letter a,
star, letter b) for the default family: the star is forbidden and becomes
percent-2a while the letters survive unchanged. -/
theorem escapefsincompatible_spec_witness :
    escapefsincompatible .FS_DEFAULT [97, 42, 98] =
      ((utf8Segments [97, 42, 98]).map (escSeg .FS_DEFAULT)).flatten ∧
    ((utf8Segments [97, 42, 98]).map (escSeg .FS_DEFAULT)).flatten = [97, 37, 50, 97, 98] := by
  refine ⟨(escapefsincompatible_spec .FS_DEFAULT [97, 42, 98]).1 (by decide) (by decide), ?_⟩
  simp [utf8Segments.eq_def, escSeg, utf8SequenceSize, islocalfscompatible,
    ntfsIncompatible, fat32Incompatible, hexdig]

/-- Modelled from the spec: `MegaClient::hexval` is used but not defined in
the provided sources; it decodes one lower-case hexadecimal digit character,
the inverse of the digit encoding used by the escape. Its argument is always
guarded by `islchex` in `unescapefsincompatible`. -/
def hexval (c : Nat) : Nat := if c ≤ 57 then c - 48 else c - 87

/-- Reading byte `i` of a C++ string: reading one position past the end
yields the NUL terminator, modelled by defaulting to 0 out of range. -/
def byteAt (s : List Nat) (i : Nat) : Nat := s.getD i 0

/-- The byte decoded from the two hex digits following a percent at index
`i`, as computed in `unescapefsincompatible` (shift by 4 then add). -/
def decodeAt (s : List Nat) (i : Nat) : Nat :=
  hexval (byteAt s (i + 1)) * 16 + hexval (byteAt s (i + 2))

/-- Whether the loop body of `unescapefsincompatible` rewrites at index `i`:
a well-formed percent escape whose decoded byte the family forbids. -/
abbrev rewrAt (fs : FileSystemType) (s : List Nat) (i : Nat) : Prop :=
  byteAt s i = 37 ∧ islchex (byteAt s (i + 1)) = true ∧
    islchex (byteAt s (i + 2)) = true ∧
    islocalfscompatible fs (decodeAt s i) = false

/-- Embedding of one iteration of the descending loop body of
`FileSystemAccess::unescapefsincompatible` (filesystem.cpp) at index `i`. -/
def unescStep (fs : FileSystemType) (s : List Nat) (i : Nat) : List Nat :=
  if byteAt s i = 37 ∧ islchex (byteAt s (i + 1)) = true ∧ islchex (byteAt s (i + 2)) = true then
    if islocalfscompatible fs (hexval (byteAt s (i + 1)) * 16 + hexval (byteAt s (i + 2))) = false then
      s.take i ++ (hexval (byteAt s (i + 1)) * 16 + hexval (byteAt s (i + 2))) :: s.drop (i + 3)
    else s
  else s

/-- The descending index loop of `unescapefsincompatible`: with counter `n`
the body runs at indices n-1 down to 0 on the successively rewritten string,
exactly as the source loop initialised with the string length minus 2. -/
def unescIter (fs : FileSystemType) (s : List Nat) : Nat → List Nat
  | 0 => s
  | n + 1 => unescIter fs (unescStep fs s n) n

/-- Embedding of `FileSystemAccess::unescapefsincompatible` (filesystem.cpp):
the two escaped self-referential names are rewritten in full first, before
the filesystem family is even consulted. -/
def unescapefsincompatible (fs : FileSystemType) (name : List Nat) : List Nat :=
  if name = [37, 50, 101, 37, 50, 101] then [46, 46]
  else if name = [37, 50, 101] then [46]
  else unescIter fs name (name.length - 2)

/-- Left-to-right rendering of the unescape loop with a position budget `n`:
only rewrites starting at positions below `n` are performed. Equal to the
descending loop by `unescIter_eq_replLt`. -/
def replLt (fs : FileSystemType) : Nat → List Nat → List Nat
  | 0, s => s
  | _ + 1, [] => []
  | n + 1, c :: rest =>
    if rewrAt fs (c :: rest) 0 then
      decodeAt (c :: rest) 0 :: replLt fs (n + 1 - 3) (rest.drop 2)
    else
      c :: replLt fs n rest
termination_by n s => s.length
decreasing_by
  · simp only [List.length_cons, List.length_drop]
    omega
  · simp only [List.length_cons]
    omega

/-- Budget-free left-to-right rendering of the unescape loop. -/
def unescF (fs : FileSystemType) : List Nat → List Nat
  | [] => []
  | c :: rest =>
    if rewrAt fs (c :: rest) 0 then
      decodeAt (c :: rest) 0 :: unescF fs (rest.drop 2)
    else
      c :: unescF fs rest
termination_by s => s.length
decreasing_by
  · simp only [List.length_cons, List.length_drop]
    omega
  · simp only [List.length_cons]
    omega

theorem byteAt_nil (i : Nat) : byteAt [] i = 0 := by
  simp [byteAt]

theorem byteAt_cons_zero (c : Nat) (s : List Nat) : byteAt (c :: s) 0 = c := rfl

theorem byteAt_cons_succ (c : Nat) (s : List Nat) (i : Nat) :
    byteAt (c :: s) (i + 1) = byteAt s i := by
  simp [byteAt]

theorem byteAt_oob {s : List Nat} {i : Nat} (h : s.length ≤ i) : byteAt s i = 0 := by
  unfold byteAt List.getD
  rw [List.get?_eq_getElem?, List.getElem?_eq_none h]
  rfl

theorem byteAt_drop (s : List Nat) (k i : Nat) : byteAt (s.drop k) i = byteAt s (k + i) := by
  unfold byteAt List.getD
  rw [List.get?_eq_getElem?, List.get?_eq_getElem?, List.getElem?_drop]

theorem byteAt_append_left {l : List Nat} (r : List Nat) {i : Nat} (h : i < l.length) :
    byteAt (l ++ r) i = byteAt l i := by
  unfold byteAt List.getD
  rw [List.get?_eq_getElem?, List.get?_eq_getElem?, List.getElem?_append_left h]

theorem byteAt_append_right (l r : List Nat) (i : Nat) :
    byteAt (l ++ r) (l.length + i) = byteAt r i := by
  unfold byteAt List.getD
  rw [List.get?_eq_getElem?, List.get?_eq_getElem?, List.getElem?_append_right (by omega)]
  congr 2
  omega

theorem byteAt_take {s : List Nat} {j i : Nat} (h : i < j) :
    byteAt (s.take j) i = byteAt s i := by
  by_cases hl : i < s.length
  · unfold byteAt List.getD
    rw [List.get?_eq_getElem?, List.get?_eq_getElem?, List.getElem?_take_of_lt h]
  · rw [byteAt_oob (by rw [List.length_take]; omega), byteAt_oob (by omega)]

theorem decodeAt_cons (c : Nat) (s : List Nat) (i : Nat) :
    decodeAt (c :: s) (i + 1) = decodeAt s i := by
  simp [decodeAt, byteAt_cons_succ]

theorem rewrAt_cons (fs : FileSystemType) (c : Nat) (s : List Nat) (i : Nat) :
    rewrAt fs (c :: s) (i + 1) ↔ rewrAt fs s i := by
  unfold rewrAt
  rw [byteAt_cons_succ, byteAt_cons_succ, byteAt_cons_succ, decodeAt_cons]

theorem decodeAt_drop (s : List Nat) (k i : Nat) :
    decodeAt (s.drop k) i = decodeAt s (k + i) := by
  unfold decodeAt
  rw [byteAt_drop, byteAt_drop]
  have h1 : k + (i + 1) = (k + i) + 1 := by omega
  have h2 : k + (i + 2) = (k + i) + 2 := by omega
  rw [h1, h2]

theorem rewrAt_drop (fs : FileSystemType) (s : List Nat) (k i : Nat) :
    rewrAt fs (s.drop k) i ↔ rewrAt fs s (k + i) := by
  unfold rewrAt
  rw [byteAt_drop, byteAt_drop, byteAt_drop, decodeAt_drop]
  have h1 : k + (i + 1) = (k + i) + 1 := by omega
  have h2 : k + (i + 2) = (k + i) + 2 := by omega
  rw [h1, h2]

theorem islchex_zero : islchex 0 = false := by decide

theorem islchex_37 : islchex 37 = false := by decide

theorem not_rewrAt_near_end (fs : FileSystemType) {s : List Nat} {i : Nat}
    (h : s.length ≤ i + 2) : ¬ rewrAt fs s i := by
  intro hr
  have h3 := hr.2.2.1
  rw [byteAt_oob (show s.length ≤ i + 2 from h), islchex_zero] at h3
  exact absurd h3 (by simp)

theorem hexval_hexdig {n : Nat} (h : n < 16) : hexval (hexdig n) = n := by
  unfold hexval hexdig
  split_ifs <;> omega

theorem hexval_decode {c : Nat} (h : c < 256) :
    hexval (hexdig (c / 16)) * 16 + hexval (hexdig (c % 16)) = c := by
  rw [hexval_hexdig (by omega), hexval_hexdig (by omega)]
  omega

theorem not_islchex_of_incompat {fs : FileSystemType} {c : Nat}
    (h : islocalfscompatible fs c = false) : islchex c = false := by
  rcases hx : islchex c with _ | _
  · rfl
  · rw [islchex_compat fs hx] at h
    exact absurd h (by simp)

theorem utf8SequenceSize_pos (c : Nat) : 1 ≤ utf8SequenceSize c := by
  unfold utf8SequenceSize
  split_ifs <;> omega

theorem byteAt_cons_one (c : Nat) (s : List Nat) : byteAt (c :: s) 1 = byteAt s 0 := rfl

theorem byteAt_cons_two (c : Nat) (s : List Nat) : byteAt (c :: s) 2 = byteAt s 1 := rfl

theorem decodeAt_cons_zero (c : Nat) (X : List Nat) :
    decodeAt (c :: X) 0 = hexval (byteAt X 0) * 16 + hexval (byteAt X 1) := rfl

theorem rewrAt_cons_zero (fs : FileSystemType) (c : Nat) (X : List Nat) :
    rewrAt fs (c :: X) 0 ↔
      (c = 37 ∧ islchex (byteAt X 0) = true ∧ islchex (byteAt X 1) = true ∧
        islocalfscompatible fs (hexval (byteAt X 0) * 16 + hexval (byteAt X 1)) = false) :=
  Iff.rfl

theorem replLt_zero (fs : FileSystemType) (s : List Nat) : replLt fs 0 s = s := by
  rw [replLt]

theorem replLt_nil (fs : FileSystemType) (n : Nat) : replLt fs n [] = [] := by
  cases n <;> rw [replLt]

theorem replLt_cons (fs : FileSystemType) (n c : Nat) (rest : List Nat) :
    replLt fs (n + 1) (c :: rest) =
      if rewrAt fs (c :: rest) 0 then
        decodeAt (c :: rest) 0 :: replLt fs (n + 1 - 3) (rest.drop 2)
      else
        c :: replLt fs n rest := by
  rw [replLt]

theorem replLt_one_cons_neg (fs : FileSystemType) (c : Nat) (rest : List Nat)
    (h : ¬ rewrAt fs (c :: rest) 0) : replLt fs 1 (c :: rest) = c :: rest := by
  have h1 : (1 : Nat) = 0 + 1 := rfl
  rw [h1, replLt_cons, if_neg h, replLt_zero]

theorem replLt_one_cons_pos (fs : FileSystemType) (c : Nat) (rest : List Nat)
    (h : rewrAt fs (c :: rest) 0) :
    replLt fs 1 (c :: rest) = decodeAt (c :: rest) 0 :: rest.drop 2 := by
  have h1 : (1 : Nat) = 0 + 1 := rfl
  rw [h1, replLt_cons, if_pos h]
  rw [show (0 + 1 - 3 : Nat) = 0 from rfl, replLt_zero]

theorem replLt_two_cons_neg (fs : FileSystemType) (c : Nat) (rest : List Nat)
    (h : ¬ rewrAt fs (c :: rest) 0) :
    replLt fs 2 (c :: rest) = c :: replLt fs 1 rest := by
  have h1 : (2 : Nat) = 1 + 1 := rfl
  rw [h1, replLt_cons, if_neg h]

theorem replLt_three_cons_neg (fs : FileSystemType) (c : Nat) (rest : List Nat)
    (h : ¬ rewrAt fs (c :: rest) 0) :
    replLt fs 3 (c :: rest) = c :: replLt fs 2 rest := by
  have h1 : (3 : Nat) = 2 + 1 := rfl
  rw [h1, replLt_cons, if_neg h]

theorem unescF_nil (fs : FileSystemType) : unescF fs [] = [] := by
  rw [unescF]

theorem unescF_cons (fs : FileSystemType) (c : Nat) (rest : List Nat) :
    unescF fs (c :: rest) =
      if rewrAt fs (c :: rest) 0 then
        decodeAt (c :: rest) 0 :: unescF fs (rest.drop 2)
      else
        c :: unescF fs rest := by
  rw [unescF]

theorem unescStep_eq (fs : FileSystemType) (s : List Nat) (i : Nat) :
    unescStep fs s i =
      if rewrAt fs s i then s.take i ++ decodeAt s i :: s.drop (i + 3) else s := by
  unfold unescStep rewrAt decodeAt
  split_ifs <;> first | rfl | (exfalso; tauto)

theorem replLt_succ_of_not (fs : FileSystemType) :
    ∀ (N : Nat) (s : List Nat) (n : Nat), s.length ≤ N → ¬ rewrAt fs s n →
      replLt fs (n + 1) s = replLt fs n s := by
  intro N
  induction N with
  | zero =>
    intro s n hs _
    rw [List.length_eq_zero.mp (Nat.le_zero.mp hs), replLt_nil, replLt_nil]
  | succ N ih =>
    intro s n hs hn
    match s with
    | [] => rw [replLt_nil, replLt_nil]
    | c :: rest =>
      have hrest : rest.length ≤ N := by
        rw [List.length_cons] at hs
        omega
      by_cases hh : rewrAt fs (c :: rest) 0
      · match n with
        | 0 => exact absurd hh hn
        | m + 1 =>
          rw [replLt_cons, replLt_cons, if_pos hh, if_pos hh]
          congr 1
          match m with
          | 0 => rfl
          | 1 => rfl
          | m + 2 =>
            have he : m + 2 + 1 + 1 - 3 = (m + 2 + 1 - 3) + 1 := by omega
            rw [he]
            have he2 : m + 2 + 1 - 3 = m := by omega
            rw [he2]
            refine ih (rest.drop 2) m (by rw [List.length_drop]; omega) ?_
            intro hr
            rw [rewrAt_drop] at hr
            rw [show 2 + m = m + 2 from by omega] at hr
            exact hn ((rewrAt_cons fs c rest (m + 2)).mpr hr)
      · match n with
        | 0 =>
          rw [replLt_cons, if_neg hh, replLt_zero, replLt_zero]
        | m + 1 =>
          rw [replLt_cons, replLt_cons, if_neg hh, if_neg hh]
          congr 1
          exact ih rest m hrest (fun hr => hn ((rewrAt_cons fs c rest m).mpr hr))

theorem replLt_step_zero (fs : FileSystemType) (s : List Nat) (h : rewrAt fs s 0) :
    replLt fs 0 (s.take 0 ++ decodeAt s 0 :: s.drop 3) = replLt fs 1 s := by
  match s with
  | [] => exact absurd h (not_rewrAt_near_end fs (by simp))
  | c :: rest =>
    rw [replLt_zero, replLt_cons, if_pos h, replLt_zero]
    simp

theorem replLt_step (fs : FileSystemType) :
    ∀ (N n : Nat) (s : List Nat), n ≤ N → rewrAt fs s n →
      replLt fs n (s.take n ++ decodeAt s n :: s.drop (n + 3)) = replLt fs (n + 1) s := by
  intro N
  induction N with
  | zero =>
    intro n s hn h
    have hn0 : n = 0 := Nat.le_zero.mp hn
    subst hn0
    exact replLt_step_zero fs s h
  | succ N ih =>
    intro n s hn h
    match n with
    | 0 => exact replLt_step_zero fs s h
    | m + 1 =>
      match s with
      | [] =>
        exfalso
        exact not_rewrAt_near_end fs (by simp) h
      | c :: rest =>
        have hr' : rewrAt fs rest m := (rewrAt_cons fs c rest m).mp h
        have hmlen : m < rest.length := by
          by_contra hcon
          have h0 := byteAt_oob (s := rest) (i := m) (by omega)
          have h37 := hr'.1
          omega
        have hTform :
            (c :: rest).take (m + 1) ++ decodeAt (c :: rest) (m + 1) :: (c :: rest).drop (m + 1 + 3) =
              c :: (rest.take m ++ decodeAt rest m :: rest.drop (m + 3)) := by
          rw [List.take_succ_cons, decodeAt_cons]
          simp [List.drop_succ_cons]
        rw [hTform]
        match m with
        | 0 =>
          match rest, hr' with
          | r0 :: rest2, hr' =>
            -- the decoded byte is not a hex digit, so no new match appears
            have hdx : islchex (decodeAt (r0 :: rest2) 0) = false :=
              not_islchex_of_incompat hr'.2.2.2
            have hsimp :
                List.take 0 (r0 :: rest2) ++ decodeAt (r0 :: rest2) 0 :: List.drop (0 + 3) (r0 :: rest2) =
                  decodeAt (r0 :: rest2) 0 :: rest2.drop 2 := by
              simp
            rw [hsimp]
            norm_num
            have hA : ¬ rewrAt fs (c :: decodeAt (r0 :: rest2) 0 :: rest2.drop 2) 0 := by
              rw [rewrAt_cons_zero]
              rintro ⟨-, hhex, -, -⟩
              have h2 : islchex (decodeAt (r0 :: rest2) 0) = true := hhex
              rw [hdx] at h2
              exact absurd h2 (by simp)
            have hB : ¬ rewrAt fs (c :: r0 :: rest2) 0 := by
              rw [rewrAt_cons_zero]
              rintro ⟨-, hhex, -, -⟩
              have h2 : islchex r0 = true := hhex
              have hr37 : r0 = 37 := hr'.1
              rw [hr37] at h2
              exact absurd h2 (by decide)
            rw [replLt_one_cons_neg fs _ _ hA, replLt_two_cons_neg fs _ _ hB,
              replLt_one_cons_pos fs _ _ hr']
        | 1 =>
          match rest, hr' with
          | r0 :: rest2, hr' =>
            have hrw2 : rewrAt fs rest2 0 := (rewrAt_cons fs r0 rest2 0).mp hr'
            match rest2, hrw2, hr' with
            | b :: rest3, hrw2, hr' =>
              have hdx : islchex (decodeAt (b :: rest3) 0) = false :=
                not_islchex_of_incompat hrw2.2.2.2
              have hb37 : byteAt (b :: rest3) 0 = 37 := hrw2.1
              have hsimp :
                  List.take 1 (r0 :: b :: rest3) ++
                      decodeAt (r0 :: b :: rest3) 1 :: List.drop (1 + 3) (r0 :: b :: rest3) =
                    r0 :: decodeAt (b :: rest3) 0 :: rest3.drop 2 := by
                rw [decodeAt_cons]
                simp
              rw [hsimp]
              norm_num
              have hb : b = 37 := hrw2.1
              have hA : ¬ rewrAt fs (c :: r0 :: decodeAt (b :: rest3) 0 :: rest3.drop 2) 0 := by
                rw [rewrAt_cons_zero]
                rintro ⟨-, -, hhex, -⟩
                have h2 : islchex (decodeAt (b :: rest3) 0) = true := hhex
                rw [hdx] at h2
                exact absurd h2 (by simp)
              have hB : ¬ rewrAt fs (c :: r0 :: b :: rest3) 0 := by
                rw [rewrAt_cons_zero]
                rintro ⟨-, -, hhex, -⟩
                have h2 : islchex b = true := hhex
                rw [hb] at h2
                exact absurd h2 (by decide)
              have hC : ¬ rewrAt fs (r0 :: decodeAt (b :: rest3) 0 :: rest3.drop 2) 0 := by
                rw [rewrAt_cons_zero]
                rintro ⟨-, hhex, -, -⟩
                have h2 : islchex (decodeAt (b :: rest3) 0) = true := hhex
                rw [hdx] at h2
                exact absurd h2 (by simp)
              have hD : ¬ rewrAt fs (r0 :: b :: rest3) 0 := by
                rw [rewrAt_cons_zero]
                rintro ⟨-, hhex, -, -⟩
                have h2 : islchex b = true := hhex
                rw [hb] at h2
                exact absurd h2 (by decide)
              rw [replLt_two_cons_neg fs _ _ hA, replLt_three_cons_neg fs _ _ hB,
                replLt_one_cons_neg fs _ _ hC, replLt_two_cons_neg fs _ _ hD,
                replLt_one_cons_pos fs _ _ hrw2]
        | m + 2 =>
          have hlen_take : (rest.take (m + 2)).length = m + 2 := by
            rw [List.length_take]
            omega
          have hT0 : byteAt (rest.take (m + 2) ++ decodeAt rest (m + 2) :: rest.drop (m + 2 + 3)) 0 =
              byteAt rest 0 := by
            rw [byteAt_append_left _ (by omega)]
            exact byteAt_take (by omega)
          have hT1 : byteAt (rest.take (m + 2) ++ decodeAt rest (m + 2) :: rest.drop (m + 2 + 3)) 1 =
              byteAt rest 1 := by
            rw [byteAt_append_left _ (by omega)]
            exact byteAt_take (by omega)
          have hhead : rewrAt fs (c :: (rest.take (m + 2) ++ decodeAt rest (m + 2) :: rest.drop (m + 2 + 3))) 0 ↔
              rewrAt fs (c :: rest) 0 := by
            rw [rewrAt_cons_zero, rewrAt_cons_zero, hT0, hT1]
          by_cases hh : rewrAt fs (c :: rest) 0
          · rw [replLt_cons, if_pos (hhead.mpr hh), replLt_cons, if_pos hh]
            have hdec0 : decodeAt (c :: (rest.take (m + 2) ++ decodeAt rest (m + 2) :: rest.drop (m + 2 + 3))) 0 =
                decodeAt (c :: rest) 0 := by
              rw [decodeAt_cons_zero, decodeAt_cons_zero, hT0, hT1]
            rw [hdec0]
            congr 1
            have hdrop2 : (rest.take (m + 2) ++ decodeAt rest (m + 2) :: rest.drop (m + 2 + 3)).drop 2 =
                (rest.drop 2).take m ++ decodeAt (rest.drop 2) m :: (rest.drop 2).drop (m + 3) := by
              rw [List.drop_append_eq_append_drop]
              rw [List.drop_take]
              rw [hlen_take]
              have h1 : (2 : Nat) - (m + 2) = 0 := by omega
              have h2 : m + 2 - 2 = m := by omega
              rw [h1, h2, List.drop_drop]
              have h3 : decodeAt (rest.drop 2) m = decodeAt rest (m + 2) := by
                rw [decodeAt_drop]
                congr 1
                omega
              rw [h3, List.drop_zero]
              rw [show 2 + (m + 3) = m + 2 + 3 from by omega]
            rw [hdrop2]
            have hrw2 : rewrAt fs (rest.drop 2) m := by
              rw [rewrAt_drop]
              have he : 2 + m = m + 2 := by omega
              rw [he]
              exact hr'
            have hstep := ih m (rest.drop 2) (by omega) hrw2
            have hbudget1 : m + 2 + 1 - 3 = m := by omega
            have hbudget2 : m + 2 + 1 + 1 - 3 = m + 1 := by omega
            rw [hbudget1, hbudget2]
            exact hstep
          · rw [replLt_cons, if_neg (fun hx => hh (hhead.mp hx)), replLt_cons, if_neg hh]
            congr 1
            exact ih (m + 2) rest (by omega) hr'

theorem unescIter_eq_replLt (fs : FileSystemType) :
    ∀ (n : Nat) (s : List Nat), unescIter fs s n = replLt fs n s := by
  intro n
  induction n with
  | zero =>
    intro s
    rw [unescIter, replLt_zero]
  | succ n ih =>
    intro s
    rw [unescIter, ih, unescStep_eq]
    by_cases h : rewrAt fs s n
    · rw [if_pos h]
      exact replLt_step fs n n s le_rfl h
    · rw [if_neg h]
      exact (replLt_succ_of_not fs s.length s n le_rfl h).symm

theorem replLt_eq_unescF (fs : FileSystemType) :
    ∀ (N : Nat) (s : List Nat) (n : Nat), s.length ≤ N → s.length ≤ n →
      replLt fs n s = unescF fs s := by
  intro N
  induction N with
  | zero =>
    intro s n hs _
    rw [List.length_eq_zero.mp (Nat.le_zero.mp hs), replLt_nil, unescF_nil]
  | succ N ih =>
    intro s n hs hn
    match s with
    | [] => rw [replLt_nil, unescF_nil]
    | c :: rest =>
      match n, hn with
      | m + 1, hn =>
        rw [replLt_cons, unescF_cons]
        by_cases hh : rewrAt fs (c :: rest) 0
        · rw [if_pos hh, if_pos hh]
          congr 1
          refine ih (rest.drop 2) (m + 1 - 3) ?_ ?_ <;>
            · rw [List.length_drop]
              rw [List.length_cons] at hs hn
              omega
        · rw [if_neg hh, if_neg hh]
          congr 1
          refine ih rest m ?_ ?_ <;>
            · rw [List.length_cons] at hs hn
              omega

theorem unescIter_full (fs : FileSystemType) (s : List Nat) :
    unescIter fs s (s.length - 2) = unescF fs s := by
  rw [unescIter_eq_replLt]
  match hs : s.length with
  | 0 =>
    rw [List.length_eq_zero.mp hs]
    rw [replLt_nil, unescF_nil]
  | 1 =>
    have h1 : (1 : Nat) - 2 = 0 := by omega
    rw [h1]
    have h2 : replLt fs 1 s = replLt fs 0 s :=
      replLt_succ_of_not fs s.length s 0 le_rfl (not_rewrAt_near_end fs (by omega))
    rw [← h2]
    exact replLt_eq_unescF fs s.length s 1 le_rfl (by omega)
  | k + 2 =>
    have ha : replLt fs (k + 1) s = replLt fs k s :=
      replLt_succ_of_not fs s.length s k le_rfl (not_rewrAt_near_end fs (by omega))
    have hb : replLt fs (k + 2) s = replLt fs (k + 1) s :=
      replLt_succ_of_not fs s.length s (k + 1) le_rfl (not_rewrAt_near_end fs (by omega))
    have hc : k + 2 - 2 = k := by omega
    rw [hc, ← ha, ← hb]
    exact replLt_eq_unescF fs s.length s (k + 2) le_rfl (by omega)

/-- A name containing no well-formed percent escape whose decoded byte the
family forbids: such names are exactly the ones the unescape loop leaves
alone. -/
abbrev noRewr (fs : FileSystemType) (s : List Nat) : Prop :=
  ∀ i, i < s.length → ¬ rewrAt fs s i

theorem noRewr_tail {fs : FileSystemType} {c : Nat} {rest : List Nat}
    (h : noRewr fs (c :: rest)) : noRewr fs rest := by
  intro i hi hr
  exact h (i + 1) (by simp only [List.length_cons]; omega) ((rewrAt_cons fs c rest i).mpr hr)

theorem noRewr_head {fs : FileSystemType} {s : List Nat} (h : noRewr fs s) :
    ¬ rewrAt fs s 0 := by
  intro hr
  match s with
  | [] =>
    have h0 := hr.1
    rw [byteAt_nil] at h0
    omega
  | c :: rest => exact h 0 (by simp) hr

theorem escGo_nil (fs : FileSystemType) : escGo fs [] = [] := by
  rw [escGo]

theorem escGo_head_of_hex (fs : FileSystemType) (t : List Nat)
    (h : islchex (byteAt (escGo fs t) 0) = true) :
    byteAt (escGo fs t) 0 = byteAt t 0 := by
  match t with
  | [] =>
    rw [escGo_nil]
  | c :: rest =>
    rw [escGo] at h ⊢
    by_cases hc : utf8SequenceSize (c % 256) = 1 ∧ islocalfscompatible fs (c % 256) = false
    · rw [dif_pos hc] at h
      rw [byteAt_cons_zero] at h
      exact absurd h (by decide)
    · rw [dif_neg hc]
      rw [byteAt_append_left _ (by simp)]
      rfl

theorem take_escGo_head (fs : FileSystemType) (t : List Nat) (j : Nat)
    (h : islchex (byteAt (t.take j ++ escGo fs (t.drop j)) 0) = true) :
    byteAt (t.take j ++ escGo fs (t.drop j)) 0 = byteAt t 0 := by
  match j with
  | 0 =>
    simp only [List.take_zero, List.drop_zero, List.nil_append] at h ⊢
    exact escGo_head_of_hex fs t h
  | j + 1 =>
    match t with
    | [] =>
      simp only [List.take_nil, List.drop_nil, List.nil_append]
      rw [escGo_nil]
    | c :: rest =>
      rw [List.take_succ_cons, List.drop_succ_cons, List.cons_append, byteAt_cons_zero,
        byteAt_cons_zero]

theorem take_escGo_second (fs : FileSystemType) (t : List Nat) (j : Nat)
    (h0 : islchex (byteAt (t.take j ++ escGo fs (t.drop j)) 0) = true)
    (h1 : islchex (byteAt (t.take j ++ escGo fs (t.drop j)) 1) = true) :
    byteAt (t.take j ++ escGo fs (t.drop j)) 1 = byteAt t 1 := by
  match j with
  | 0 =>
    simp only [List.take_zero, List.drop_zero, List.nil_append] at h0 h1 ⊢
    match t with
    | [] => rw [escGo_nil]
    | c :: rest =>
      rw [escGo] at h0 h1 ⊢
      by_cases hc : utf8SequenceSize (c % 256) = 1 ∧ islocalfscompatible fs (c % 256) = false
      · rw [dif_pos hc] at h0
        rw [byteAt_cons_zero] at h0
        exact absurd h0 (by decide)
      · rw [dif_neg hc] at h1 ⊢
        match rest with
        | [] =>
          rw [List.take_nil, List.drop_nil, escGo_nil]
          rfl
        | a :: rest2 =>
          generalize utf8SequenceSize (c % 256) - 1 = nk at h1 ⊢
          cases nk with
          | zero =>
            rw [List.take_zero, List.drop_zero] at h1 ⊢
            have hsh : (c :: ([] : List Nat)) ++ escGo fs (a :: rest2) =
                c :: escGo fs (a :: rest2) := rfl
            rw [hsh] at h1 ⊢
            rw [byteAt_cons_one] at h1 ⊢
            rw [byteAt_cons_one]
            exact escGo_head_of_hex fs (a :: rest2) h1
          | succ k =>
            rw [List.take_succ_cons]
            have hsh : ((c :: a :: rest2.take k) ++ escGo fs ((a :: rest2).drop (k + 1))) =
                c :: a :: (rest2.take k ++ escGo fs ((a :: rest2).drop (k + 1))) := by
              simp
            rw [hsh, byteAt_cons_one, byteAt_cons_zero, byteAt_cons_one, byteAt_cons_zero]
  | j + 1 =>
    match t with
    | [] =>
      simp only [List.take_nil, List.drop_nil, List.nil_append]
      rw [escGo_nil]
    | c :: rest =>
      rw [List.take_succ_cons, List.drop_succ_cons, List.cons_append] at h0 h1 ⊢
      rw [byteAt_cons_one] at h1 ⊢
      rw [byteAt_cons_one]
      exact take_escGo_head fs rest j h1

theorem unescF_take_escGo (fs : FileSystemType) :
    ∀ (M : Nat) (s : List Nat) (k : Nat),
      2 * s.length + (if k = 0 then 1 else 0) ≤ M →
      (∀ b ∈ s, b < 256) → noRewr fs s →
      unescF fs (s.take k ++ escGo fs (s.drop k)) = s := by
  intro M
  induction M with
  | zero =>
    intro s k hM hb hnr
    have hs : s = [] := by
      match s with
      | [] => rfl
      | c :: rest => simp at hM
    subst hs
    have hk : k ≠ 0 := by
      intro hk0
      subst hk0
      simp at hM
    simp only [List.take_nil, List.drop_nil, List.nil_append, escGo_nil, unescF_nil]
  | succ M ih =>
    intro s k hM hb hnr
    match k with
    | 0 =>
      simp only [List.take_zero, List.drop_zero, List.nil_append]
      match s with
      | [] => rw [escGo_nil, unescF_nil]
      | c :: rest =>
        have hc256 : c < 256 := hb c (by simp)
        have hcmod : c % 256 = c := Nat.mod_eq_of_lt hc256
        rw [escGo]
        by_cases hc : utf8SequenceSize (c % 256) = 1 ∧ islocalfscompatible fs (c % 256) = false
        · rw [dif_pos hc]
          rw [escGo_hex_cons fs (islchex_hexdig (by omega)) _]
          rw [escGo_hex_cons fs (islchex_hexdig (by omega)) _]
          have hrw : rewrAt fs
              (37 :: hexdig (c % 256 / 16) :: hexdig (c % 256 % 16) :: escGo fs rest) 0 := by
            rw [rewrAt_cons_zero]
            refine ⟨rfl, ?_, ?_, ?_⟩
            · exact islchex_hexdig (by omega)
            · exact islchex_hexdig (by omega)
            · show islocalfscompatible fs
                (hexval (hexdig (c % 256 / 16)) * 16 + hexval (hexdig (c % 256 % 16))) = false
              rw [hexval_hexdig (by omega), hexval_hexdig (by omega)]
              rw [show c % 256 / 16 * 16 + c % 256 % 16 = c % 256 from by omega]
              exact hc.2
          rw [unescF_cons, if_pos hrw]
          have hdec : decodeAt
              (37 :: hexdig (c % 256 / 16) :: hexdig (c % 256 % 16) :: escGo fs rest) 0 = c := by
            show hexval (hexdig (c % 256 / 16)) * 16 + hexval (hexdig (c % 256 % 16)) = c
            rw [hexval_hexdig (by omega), hexval_hexdig (by omega)]
            omega
          rw [hdec]
          have hdrop : (hexdig (c % 256 / 16) :: hexdig (c % 256 % 16) :: escGo fs rest).drop 2 =
              escGo fs rest := rfl
          rw [hdrop]
          have hih := ih rest 0 (by simp only [List.length_cons] at hM; simp; omega)
            (fun b hbmem => hb b (by simp [hbmem])) (noRewr_tail hnr)
          simp only [List.take_zero, List.drop_zero, List.nil_append] at hih
          rw [hih]
        · rw [dif_neg hc]
          have hn1 : 1 ≤ utf8SequenceSize (c % 256) := utf8SequenceSize_pos _
          obtain ⟨q, hq⟩ : ∃ q, utf8SequenceSize (c % 256) = q + 1 :=
            ⟨utf8SequenceSize (c % 256) - 1, by omega⟩
          rw [hq]
          have hshape : (c :: rest.take (q + 1 - 1)) ++ escGo fs (rest.drop (q + 1 - 1)) =
              (c :: rest).take (q + 1) ++ escGo fs ((c :: rest).drop (q + 1)) := by
            rw [List.take_succ_cons, List.drop_succ_cons]
            simp
          rw [hshape]
          refine ih (c :: rest) (q + 1) ?_ hb hnr
          have hM2 : 2 * (rest.length + 1) + 1 ≤ M + 1 := by simpa using hM
          simp only [List.length_cons, if_neg (Nat.succ_ne_zero q)]
          omega
    | j + 1 =>
      match s with
      | [] =>
        simp only [List.take_nil, List.drop_nil, List.nil_append, escGo_nil, unescF_nil]
      | c :: rest =>
        rw [List.take_succ_cons, List.drop_succ_cons, List.cons_append]
        have hhead : ¬ rewrAt fs (c :: (rest.take j ++ escGo fs (rest.drop j))) 0 := by
          intro hr
          rw [rewrAt_cons_zero] at hr
          obtain ⟨hc37, hx0, hx1, hcmp⟩ := hr
          have e0 := take_escGo_head fs rest j hx0
          have e1 := take_escGo_second fs rest j hx0 hx1
          have hhd : ¬ rewrAt fs (c :: rest) 0 := hnr 0 (by simp)
          apply hhd
          rw [rewrAt_cons_zero]
          refine ⟨hc37, ?_, ?_, ?_⟩
          · rw [← e0]; exact hx0
          · rw [← e1]; exact hx1
          · rw [← e0, ← e1]; exact hcmp
        rw [unescF_cons, if_neg hhead]
        have hM' : 2 * rest.length + (if j = 0 then 1 else 0) ≤ M := by
          simp only [List.length_cons, if_neg (Nat.succ_ne_zero j)] at hM
          by_cases hj : j = 0 <;> simp [hj] <;> omega
        rw [ih rest j hM' (fun b hbmem => hb b (by simp [hbmem])) (noRewr_tail hnr)]

theorem unescF_escGo_roundtrip (fs : FileSystemType) (s : List Nat)
    (hb : ∀ b ∈ s, b < 256) (hnr : noRewr fs s) :
    unescF fs (escGo fs s) = s := by
  have h := unescF_take_escGo fs (2 * s.length + 1) s 0 (by simp) hb hnr
  simpa using h

theorem unescF_id (fs : FileSystemType) (s : List Nat) :
    noRewr fs s → unescF fs s = s := by
  induction s with
  | nil =>
    intro _
    rw [unescF_nil]
  | cons c rest ih =>
    intro hnr
    rw [unescF_cons, if_neg (hnr 0 (by simp))]
    rw [ih (noRewr_tail hnr)]

theorem unescF_p2e (fs : FileSystemType) :
    unescF fs [37, 50, 101] =
      if islocalfscompatible fs 46 = false then [46] else [37, 50, 101] := by
  by_cases h46 : islocalfscompatible fs 46 = false
  · rw [if_pos h46]
    have hrw : rewrAt fs [37, 50, 101] 0 := by
      refine ⟨rfl, by decide, by decide, ?_⟩
      show islocalfscompatible fs 46 = false
      exact h46
    rw [show ([37, 50, 101] : List Nat) = 37 :: [50, 101] from rfl] at hrw ⊢
    rw [unescF_cons, if_pos hrw]
    rw [show decodeAt (37 :: [50, 101]) 0 = 46 from by decide]
    rw [show (([50, 101] : List Nat)).drop 2 = [] from rfl, unescF_nil]
  · rw [if_neg h46]
    have h46t : islocalfscompatible fs 46 = true := by
      revert h46
      cases islocalfscompatible fs 46 <;> simp
    refine unescF_id fs _ ?_
    intro i hi hr
    simp only [List.length_cons, List.length_nil] at hi
    interval_cases i
    · have h4 := hr.2.2.2
      rw [show decodeAt [37, 50, 101] 0 = 46 from by decide, h46t] at h4
      exact absurd h4 (by simp)
    · exact absurd hr.1 (by decide)
    · exact absurd hr.1 (by decide)

theorem unescF_p2e2e (fs : FileSystemType) :
    unescF fs [37, 50, 101, 37, 50, 101] =
      if islocalfscompatible fs 46 = false then [46, 46] else [37, 50, 101, 37, 50, 101] := by
  by_cases h46 : islocalfscompatible fs 46 = false
  · rw [if_pos h46]
    have hrw : rewrAt fs [37, 50, 101, 37, 50, 101] 0 := by
      refine ⟨rfl, by decide, by decide, ?_⟩
      show islocalfscompatible fs 46 = false
      exact h46
    rw [show ([37, 50, 101, 37, 50, 101] : List Nat) = 37 :: [50, 101, 37, 50, 101] from rfl] at hrw ⊢
    rw [unescF_cons, if_pos hrw]
    rw [show decodeAt (37 :: [50, 101, 37, 50, 101]) 0 = 46 from by decide]
    rw [show (([50, 101, 37, 50, 101] : List Nat)).drop 2 = [37, 50, 101] from rfl]
    rw [unescF_p2e, if_pos h46]
  · rw [if_neg h46]
    have h46t : islocalfscompatible fs 46 = true := by
      revert h46
      cases islocalfscompatible fs 46 <;> simp
    refine unescF_id fs _ ?_
    intro i hi hr
    simp only [List.length_cons, List.length_nil] at hi
    interval_cases i
    · have h4 := hr.2.2.2
      rw [show decodeAt [37, 50, 101, 37, 50, 101] 0 = 46 from by decide, h46t] at h4
      exact absurd h4 (by simp)
    · exact absurd hr.1 (by decide)
    · exact absurd hr.1 (by decide)
    · have h4 := hr.2.2.2
      rw [show decodeAt [37, 50, 101, 37, 50, 101] 3 = 46 from by decide, h46t] at h4
      exact absurd h4 (by simp)
    · exact absurd hr.1 (by decide)
    · exact absurd hr.1 (by decide)

/-- C2 counterexample: on the default filesystem family the cloud-side name
consisting of the three bytes percent, `2`, `a` is left unchanged by the
escape (each byte is allowed), yet unescaping decodes it to the single star
byte, so unescape of escape differs from the original name and user content
containing a percent escape of a forbidden byte is rewritten. -/
theorem unescape_escape_not_inverse :
    escapefsincompatible .FS_DEFAULT [37, 50, 97] = [37, 50, 97] ∧
    unescapefsincompatible .FS_DEFAULT (escapefsincompatible .FS_DEFAULT [37, 50, 97]) = [42] ∧
    ([42] : List Nat) ≠ [37, 50, 97] := by
  have hesc : escapefsincompatible .FS_DEFAULT [37, 50, 97] = [37, 50, 97] := by
    unfold escapefsincompatible
    rw [if_neg (by decide), if_neg (by decide)]
    rw [escGo]
    rw [dif_neg (by decide)]
    rw [show utf8SequenceSize (37 % 256) - 1 = 0 from by decide]
    rw [List.take_zero, List.drop_zero]
    rw [escGo_hex_cons _ (by decide) _, escGo_hex_cons _ (by decide) _, escGo_nil]
    rfl
  refine ⟨hesc, ?_, by decide⟩
  rw [hesc]
  decide

/-- C2 amended: unescape only rewrites a well-formed percent escape whose
decoded byte the family forbids, so unescape of escape returns the original
name, and unescape alone leaves the name untouched, for every byte-valued
name that contains no percent escape decoding to a forbidden byte and is not
one of the two literal names percent-2e and percent-2e-percent-2e. -/
theorem unescape_escape_inverse (fs : FileSystemType) (name : List Nat)
    (hb : ∀ b ∈ name, b < 256) (hnr : noRewr fs name)
    (h1 : name ≠ [37, 50, 101]) (h2 : name ≠ [37, 50, 101, 37, 50, 101]) :
    unescapefsincompatible fs (escapefsincompatible fs name) = name ∧
    unescapefsincompatible fs name = name := by
  constructor
  · unfold escapefsincompatible
    by_cases hdd : name = [46, 46]
    · rw [if_pos hdd, hdd]
      unfold unescapefsincompatible
      rw [if_pos rfl]
    · rw [if_neg hdd]
      by_cases hd : name = [46]
      · rw [if_pos hd, hd]
        unfold unescapefsincompatible
        rw [if_neg (by decide), if_pos rfl]
      · rw [if_neg hd]
        have hrt : unescF fs (escGo fs name) = name := unescF_escGo_roundtrip fs name hb hnr
        unfold unescapefsincompatible
        by_cases hsp1 : escGo fs name = [37, 50, 101, 37, 50, 101]
        · exfalso
          rw [hsp1, unescF_p2e2e] at hrt
          by_cases h46 : islocalfscompatible fs 46 = false
          · rw [if_pos h46] at hrt
            exact hdd hrt.symm
          · rw [if_neg h46] at hrt
            exact h2 hrt.symm
        · rw [if_neg hsp1]
          by_cases hsp2 : escGo fs name = [37, 50, 101]
          · exfalso
            rw [hsp2, unescF_p2e] at hrt
            by_cases h46 : islocalfscompatible fs 46 = false
            · rw [if_pos h46] at hrt
              exact hd hrt.symm
            · rw [if_neg h46] at hrt
              exact h1 hrt.symm
          · rw [if_neg hsp2, unescIter_full]
            exact hrt
  · unfold unescapefsincompatible
    rw [if_neg h2, if_neg h1, unescIter_full]
    exact unescF_id fs name hnr

/-- Instantiation of `unescape_escape_inverse` on a concrete name (letter a,
star, letter b) for the default family, with all hypotheses discharged. -/
theorem unescape_escape_inverse_witness :
    unescapefsincompatible .FS_DEFAULT (escapefsincompatible .FS_DEFAULT [97, 42, 98]) =
      [97, 42, 98] ∧
    unescapefsincompatible .FS_DEFAULT [97, 42, 98] = [97, 42, 98] :=
  unescape_escape_inverse .FS_DEFAULT [97, 42, 98] (by decide) (by decide) (by decide) (by decide)

/-- C10: `captimestamp` maps every timestamp into the closed interval from 0
to 2^32 - 1: negative inputs become 0, inputs above 2^32 - 1 become 2^32 - 1,
and every input already inside the interval is left unchanged. -/
theorem captimestamp_clamps (t : Int) :
    (0 ≤ captimestamp t ∧ captimestamp t ≤ 4294967295) ∧
    (t < 0 → captimestamp t = 0) ∧
    (t > 4294967295 → captimestamp t = 4294967295) ∧
    (0 ≤ t → t ≤ 4294967295 → captimestamp t = t) := by
  unfold captimestamp
  split_ifs <;> omega

/-- Instantiation of `captimestamp_clamps` at concrete timestamps, with all
inner hypotheses discharged. -/
theorem captimestamp_clamps_witness :
    captimestamp (-7) = 0 ∧ captimestamp 4294967296 = 4294967295 ∧ captimestamp 12 = 12 :=
  ⟨(captimestamp_clamps (-7)).2.1 (by decide),
   (captimestamp_clamps 4294967296).2.2.1 (by decide),
   (captimestamp_clamps 12).2.2.2 (by decide) (by decide)⟩

/-- State of a `FileAccess` object (filesystem.cpp): `nonblockingOpened`
models whether `nonblocking_localname` is nonempty, which the nonblocking
`fopen` makes true, together with the stat values cached at that open. -/
structure FileAccessSt where
  nonblockingOpened : Bool
  mtime : Int
  fsize : Int
  canRetry : Bool
  isAsyncOpened : Bool
  numAsyncReads : Nat
deriving DecidableEq

/-- Result of one call to `openf` or `asyncopenf`: the updated object state,
the returned boolean, and whether the system-level open was reached. -/
structure OpenOutcome where
  fa : FileAccessSt
  result : Bool
  sysopenCalled : Bool
deriving DecidableEq

/-- Embedding of `FileAccess::openf` (filesystem.cpp). The fresh stat of the
file is an oracle argument (`statRes`; none models a failed `sysstat`), as is
the success of the platform `sysopen`. -/
def openf (fa : FileAccessSt) (statRes : Option (Int × Int)) (sysopenOk : Bool) : OpenOutcome :=
  if fa.nonblockingOpened = false then
    { fa := fa, result := true, sysopenCalled := false }
  else
    match statRes with
    | none => { fa := fa, result := false, sysopenCalled := false }
    | some (currMtime, currSize) =>
      if currMtime ≠ fa.mtime ∨ currSize ≠ fa.fsize then
        { fa := { fa with mtime := currMtime, fsize := currSize, canRetry := false },
          result := false, sysopenCalled := false }
      else
        { fa := fa, result := sysopenOk, sysopenCalled := true }

/-- Embedding of `FileAccess::asyncopenf` (filesystem.cpp). -/
def asyncopenf (fa : FileAccessSt) (statRes : Option (Int × Int)) (sysopenOk : Bool) :
    OpenOutcome :=
  let fa0 := { fa with numAsyncReads := fa.numAsyncReads + 1 }
  if fa.nonblockingOpened = false then
    { fa := fa0, result := true, sysopenCalled := false }
  else if fa.isAsyncOpened then
    { fa := fa0, result := true, sysopenCalled := false }
  else
    match statRes with
    | none => { fa := fa0, result := false, sysopenCalled := false }
    | some (currMtime, currSize) =>
      if currMtime ≠ fa.mtime ∨ currSize ≠ fa.fsize then
        { fa := { fa0 with mtime := currMtime, fsize := currSize, canRetry := false },
          result := false, sysopenCalled := false }
      else
        { fa := { fa0 with isAsyncOpened := sysopenOk },
          result := sysopenOk, sysopenCalled := true }

/-- C6: for a file opened in non-blocking mode, `openf` (and `asyncopenf`
when no async handle is already open) returns false without reaching the
system open whenever the fresh stat fails or reports a size or mtime that
differs from the values captured at the original open, and it reaches the
system open exactly when both are unchanged. -/
theorem openf_fails_on_stale (fa : FileAccessSt) (statRes : Option (Int × Int))
    (sysopenOk : Bool) (hnb : fa.nonblockingOpened = true) :
    (statRes = none →
      (openf fa statRes sysopenOk).result = false ∧
      (openf fa statRes sysopenOk).sysopenCalled = false) ∧
    (∀ mt sz, statRes = some (mt, sz) → mt ≠ fa.mtime ∨ sz ≠ fa.fsize →
      (openf fa statRes sysopenOk).result = false ∧
      (openf fa statRes sysopenOk).sysopenCalled = false) ∧
    (statRes = some (fa.mtime, fa.fsize) →
      (openf fa statRes sysopenOk).result = sysopenOk ∧
      (openf fa statRes sysopenOk).sysopenCalled = true) ∧
    (fa.isAsyncOpened = false →
      (statRes = none →
        (asyncopenf fa statRes sysopenOk).result = false ∧
        (asyncopenf fa statRes sysopenOk).sysopenCalled = false) ∧
      (∀ mt sz, statRes = some (mt, sz) → mt ≠ fa.mtime ∨ sz ≠ fa.fsize →
        (asyncopenf fa statRes sysopenOk).result = false ∧
        (asyncopenf fa statRes sysopenOk).sysopenCalled = false) ∧
      (statRes = some (fa.mtime, fa.fsize) →
        (asyncopenf fa statRes sysopenOk).result = sysopenOk ∧
        (asyncopenf fa statRes sysopenOk).sysopenCalled = true)) := by
  refine ⟨?_, ?_, ?_, ?_⟩
  · intro hs
    subst hs
    simp [openf, hnb]
  · intro mt sz hs hdiff
    subst hs
    simp [openf, hnb, hdiff]
  · intro hs
    subst hs
    simp [openf, hnb]
  · intro hao
    refine ⟨?_, ?_, ?_⟩
    · intro hs
      subst hs
      simp [asyncopenf, hnb, hao]
    · intro mt sz hs hdiff
      subst hs
      simp [asyncopenf, hnb, hao, hdiff]
    · intro hs
      subst hs
      simp [asyncopenf, hnb, hao]

/-- Instantiation of `openf_fails_on_stale` on a concrete non-blocking file
handle: a changed mtime makes the re-open fail, an unchanged stat reaches the
system open. -/
theorem openf_fails_on_stale_witness :
    ((openf ⟨true, 100, 7, true, false, 0⟩ (some (101, 7)) true).result = false ∧
      (openf ⟨true, 100, 7, true, false, 0⟩ (some (101, 7)) true).sysopenCalled = false) ∧
    ((openf ⟨true, 100, 7, true, false, 0⟩ (some (100, 7)) true).result = true ∧
      (openf ⟨true, 100, 7, true, false, 0⟩ (some (100, 7)) true).sysopenCalled = true) ∧
    (asyncopenf ⟨true, 100, 7, true, false, 0⟩ (some (100, 8)) true).result = false :=
  ⟨(openf_fails_on_stale ⟨true, 100, 7, true, false, 0⟩ (some (101, 7)) true rfl).2.1
      101 7 rfl (by norm_num),
   (openf_fails_on_stale ⟨true, 100, 7, true, false, 0⟩ (some (100, 7)) true rfl).2.2.1 rfl,
   ((openf_fails_on_stale ⟨true, 100, 7, true, false, 0⟩ (some (100, 8)) true rfl).2.2.2 rfl).2.1
      100 8 rfl (by norm_num) |>.1⟩

/-- The three notification queues of `DirNotify` (filesystem.cpp). -/
inductive NotifyQueueKind where
  | DIREVENTS
  | RETRY
  | EXTRA
deriving DecidableEq

/-- One entry of a notification queue: timestamp in deciseconds (0 meaning
immediate), the base LocalNode (modelled by pointer identity as an optional
id, none being the null pointer), and the relative path bytes. -/
structure Notification where
  timestamp : Nat
  localnode : Option Nat
  path : List Nat
deriving DecidableEq

/-- State touched by `DirNotify::notify`: the three queues (in arrival
order; the deque back is the last element) and the client syncactivity
flag. -/
structure DirNotifySt where
  qDirevents : List Notification
  qRetry : List Notification
  qExtra : List Notification
  syncactivity : Bool
deriving DecidableEq

def getQ (st : DirNotifySt) : NotifyQueueKind → List Notification
  | .DIREVENTS => st.qDirevents
  | .RETRY => st.qRetry
  | .EXTRA => st.qExtra

def setQ (st : DirNotifySt) (q : NotifyQueueKind) (l : List Notification) : DirNotifySt :=
  match q with
  | .DIREVENTS => { st with qDirevents := l }
  | .RETRY => { st with qRetry := l }
  | .EXTRA => { st with qExtra := l }

/-- The back of a notification deque (the most recently pushed entry). -/
def backOf (l : List Notification) : Notification :=
  l.getLastD ⟨0, none, []⟩

/-- The node type tag for files (`FILENODE` in the nodetype enumeration). -/
def FILENODE : Nat := 0

/-- What the fresh `fopen` probe inside `DirNotify::notify` reports about the
notified path: success, the retry flag, and the stat fields consulted by the
self-notification test. -/
structure FaProbe where
  success : Bool
  canRetry : Bool
  fsidvalid : Bool
  fsid : Nat
  ftype : Nat
  mtime : Int
  fsize : Int
deriving DecidableEq

/-- What `localnodebypath` returns for the notified path, flattened to the
fields the self-notification test reads: whether the sync node has a paired
cloud node, whether that node's back-link points back at it, whether the
fingerprints agree, the cloud node's name attribute, and the recorded name,
filesystem id, type, mtime and size. -/
structure LlProbe where
  hasNode : Bool
  backlinkOk : Bool
  fpMatch : Bool
  nameAttr : Option (List Nat)
  lname : List Nat
  fsid : Nat
  ltype : Nat
  mtime : Int
  lsize : Int
deriving DecidableEq

/-- The exact skip condition of lines 398-404 of filesystem.cpp: either the
path is gone on disk and no sync node records it (deleted file replay), or
the stat (type, fsid, and for files mtime and size) and the cloud-side name
agree with the recorded sync node and its paired cloud node. -/
def selfNotificationCheck (fa : FaProbe) (ll : Option LlProbe) : Bool :=
  match ll with
  | none => !fa.success && !fa.canRetry
  | some l =>
    fa.success && l.hasNode && l.backlinkOk &&
      (decide (l.ltype ≠ FILENODE) || l.fpMatch) &&
      decide (l.nameAttr = some l.lname) &&
      fa.fsidvalid && decide (fa.fsid = l.fsid) && decide (fa.ftype = l.ltype) &&
      (decide (l.ltype ≠ FILENODE) || (decide (l.mtime = fa.mtime) && decide (l.lsize = fa.fsize)))

/-- Environment of one `DirNotify::notify` call: whether a sync object is
attached and past its initializing phase, the current decisecond tick, and
the filesystem probes consumed by the self-notification test. -/
structure NotifyEnv where
  syncPresent : Bool
  starting : Bool
  ds : Nat
  fa : FaProbe
  ll : Option LlProbe
deriving DecidableEq

/-- Embedding of `DirNotify::notify` (filesystem.cpp). Mutating the back of
the deque is modelled by dropping the last element and appending the updated
entry. -/
def notify (env : NotifyEnv) (st : DirNotifySt) (q : NotifyQueueKind) (l : Option Nat)
    (localpath : List Nat) (immediate : Bool) : DirNotifySt :=
  if (q = .DIREVENTS ∨ q = .EXTRA) ∧ getQ st q ≠ [] ∧
      (backOf (getQ st q)).localnode = l ∧ (backOf (getQ st q)).path = localpath then
    if (backOf (getQ st q)).timestamp ≠ 0 then
      setQ st q ((getQ st q).dropLast ++
        [{ backOf (getQ st q) with timestamp := if immediate then 0 else env.ds }])
    else st
  else if immediate = false ∧ env.syncPresent = true ∧ env.starting = false ∧
      q = .DIREVENTS ∧ selfNotificationCheck env.fa env.ll = true then
    st
  else
    let st1 := if q = .DIREVENTS ∨ q = .EXTRA then { st with syncactivity := true } else st
    setQ st1 q (getQ st1 q ++
      [{ timestamp := if immediate then 0 else env.ds, localnode := l, path := localpath }])

theorem getQ_setQ_same (st : DirNotifySt) (q : NotifyQueueKind) (l : List Notification) :
    getQ (setQ st q l) q = l := by
  cases q <;> rfl

theorem getQ_setQ_ne (st : DirNotifySt) (q q2 : NotifyQueueKind) (l : List Notification)
    (h : q2 ≠ q) : getQ (setQ st q l) q2 = getQ st q2 := by
  cases q <;> cases q2 <;> first | rfl | exact absurd rfl h

theorem setQ_syncactivity (st : DirNotifySt) (q : NotifyQueueKind) (l : List Notification) :
    (setQ st q l).syncactivity = st.syncactivity := by
  cases q <;> rfl

theorem dropLast_backOf (l : List Notification) (h : l ≠ []) :
    l.dropLast ++ [backOf l] = l := by
  induction l with
  | nil => exact absurd rfl h
  | cons a t ih =>
    match t with
    | [] => rfl
    | b :: t2 =>
      have hih := ih (by simp)
      unfold backOf at hih ⊢
      rw [List.getLastD_cons, List.dropLast_cons₂, List.cons_append, List.getLastD_cons]
      rw [List.getLastD_cons] at hih
      rw [hih]

theorem length_dropLast_append (l : List Notification) (x : Notification) (h : l ≠ []) :
    (l.dropLast ++ [x]).length = l.length := by
  rw [List.length_append, List.length_dropLast]
  have : 0 < l.length := List.length_pos.mpr h
  simp
  omega

/-- C7 counterexample: the current tick is 7 and a notification for node 1
with path byte 97 was already queued in this same tick (its timestamp is 7,
the enqueue tick) as the first of the two EXTRA entries, both of tick 7; yet
enqueuing the same (node, path) pair again at tick 7 appends a third entry
instead of coalescing, because the source only compares against the back of
the queue. -/
theorem notify_repeat_grows_queue :
    ((⟨7, some 1, [97]⟩ : Notification) ∈
        ([⟨7, some 1, [97]⟩, ⟨7, some 2, [98]⟩] : List Notification)) ∧
    (getQ (notify ⟨false, false, 7, ⟨false, false, false, 0, 0, 0, 0⟩, none⟩
        ⟨[], [], [⟨7, some 1, [97]⟩, ⟨7, some 2, [98]⟩], false⟩
        .EXTRA (some 1) [97] false) .EXTRA).length = 2 + 1 ∧
    getQ (notify ⟨false, false, 7, ⟨false, false, false, 0, 0, 0, 0⟩, none⟩
        ⟨[], [], [⟨7, some 1, [97]⟩, ⟨7, some 2, [98]⟩], false⟩
        .EXTRA (some 1) [97] false) .EXTRA =
      [⟨7, some 1, [97]⟩, ⟨7, some 2, [98]⟩, ⟨7, some 1, [97]⟩] := by
  decide

/-- C7 amended: a repeated notification coalesces only when it equals the
entry currently at the back of the DIREVENTS or EXTRA queue; in that case no
queue grows, no queue other than the hit one changes, syncactivity is
untouched, and only the back entry's timestamp is refreshed (and only if it
was not already zero). -/
theorem notify_coalesces_with_back (env : NotifyEnv) (st : DirNotifySt) (q : NotifyQueueKind)
    (l : Option Nat) (localpath : List Nat) (immediate : Bool)
    (hq : q = .DIREVENTS ∨ q = .EXTRA) (hne : getQ st q ≠ [])
    (hl : (backOf (getQ st q)).localnode = l) (hp : (backOf (getQ st q)).path = localpath) :
    (∀ q2, (getQ (notify env st q l localpath immediate) q2).length = (getQ st q2).length) ∧
    (notify env st q l localpath immediate).syncactivity = st.syncactivity ∧
    (∀ q2, q2 ≠ q → getQ (notify env st q l localpath immediate) q2 = getQ st q2) ∧
    getQ (notify env st q l localpath immediate) q =
      (getQ st q).dropLast ++
        [{ backOf (getQ st q) with
            timestamp :=
              if (backOf (getQ st q)).timestamp = 0 then 0
              else if immediate then 0 else env.ds }] := by
  have hcond : (q = .DIREVENTS ∨ q = .EXTRA) ∧ getQ st q ≠ [] ∧
      (backOf (getQ st q)).localnode = l ∧ (backOf (getQ st q)).path = localpath :=
    ⟨hq, hne, hl, hp⟩
  by_cases hts : (backOf (getQ st q)).timestamp ≠ 0
  · have hnot : notify env st q l localpath immediate =
        setQ st q ((getQ st q).dropLast ++
          [{ backOf (getQ st q) with timestamp := if immediate then 0 else env.ds }]) := by
      unfold notify
      rw [if_pos hcond, if_pos hts]
    refine ⟨?_, ?_, ?_, ?_⟩
    · intro q2
      by_cases h2 : q2 = q
      · subst h2
        rw [hnot, getQ_setQ_same]
        exact length_dropLast_append _ _ hne
      · rw [hnot, getQ_setQ_ne _ _ _ _ h2]
    · rw [hnot, setQ_syncactivity]
    · intro q2 h2
      rw [hnot, getQ_setQ_ne _ _ _ _ h2]
    · rw [hnot, getQ_setQ_same, if_neg hts]
  · have hts0 : (backOf (getQ st q)).timestamp = 0 := by omega
    have hnot : notify env st q l localpath immediate = st := by
      unfold notify
      rw [if_pos hcond, if_neg hts]
    have hback : { backOf (getQ st q) with
        timestamp := if (backOf (getQ st q)).timestamp = 0 then 0
                     else if immediate then 0 else env.ds } = backOf (getQ st q) := by
      rw [if_pos hts0, ← hts0]
    refine ⟨fun q2 => by rw [hnot], by rw [hnot], fun q2 _ => by rw [hnot], ?_⟩
    rw [hnot, hback, dropLast_backOf _ hne]

/-- Instantiation of `notify_coalesces_with_back` on a concrete queue whose
back entry matches the incoming notification: the DIREVENTS queue keeps its
two entries and only the back timestamp is refreshed to the current tick. -/
theorem notify_coalesces_with_back_witness :
    (getQ (notify ⟨true, false, 9, ⟨false, false, false, 0, 0, 0, 0⟩, none⟩
        ⟨[⟨4, some 2, [98]⟩, ⟨5, some 1, [97]⟩], [], [], false⟩
        .DIREVENTS (some 1) [97] false) .DIREVENTS).length = 2 ∧
    getQ (notify ⟨true, false, 9, ⟨false, false, false, 0, 0, 0, 0⟩, none⟩
        ⟨[⟨4, some 2, [98]⟩, ⟨5, some 1, [97]⟩], [], [], false⟩
        .DIREVENTS (some 1) [97] false) .DIREVENTS =
      [⟨4, some 2, [98]⟩, ⟨9, some 1, [97]⟩] := by
  have h := notify_coalesces_with_back
    ⟨true, false, 9, ⟨false, false, false, 0, 0, 0, 0⟩, none⟩
    ⟨[⟨4, some 2, [98]⟩, ⟨5, some 1, [97]⟩], [], [], false⟩
    .DIREVENTS (some 1) [97] false (Or.inl rfl) (by decide) (by decide) (by decide)
  refine ⟨?_, ?_⟩
  · rw [h.1 .DIREVENTS]
    decide
  · rw [h.2.2.2]
    decide

/-- C8: when a sync is attached and past its initializing phase, a
non-immediate DIREVENTS notification whose fresh stat and name agree with
the recorded sync node and its paired cloud node (the self-notification
condition) is dropped: no queue changes length and syncactivity is not set,
so the replayed mutation can not trigger a second one. -/
theorem notify_drops_self_notification (env : NotifyEnv) (st : DirNotifySt)
    (l : Option Nat) (localpath : List Nat)
    (hs : env.syncPresent = true) (hi : env.starting = false)
    (hself : selfNotificationCheck env.fa env.ll = true) :
    (∀ q2, (getQ (notify env st .DIREVENTS l localpath false) q2).length =
      (getQ st q2).length) ∧
    (notify env st .DIREVENTS l localpath false).syncactivity = st.syncactivity := by
  have hchar : notify env st .DIREVENTS l localpath false = st ∨
      (getQ st .DIREVENTS ≠ [] ∧
        notify env st .DIREVENTS l localpath false =
          setQ st .DIREVENTS ((getQ st .DIREVENTS).dropLast ++
            [{ backOf (getQ st .DIREVENTS) with timestamp := env.ds }])) := by
    by_cases h1 : ((.DIREVENTS : NotifyQueueKind) = .DIREVENTS ∨
        (.DIREVENTS : NotifyQueueKind) = .EXTRA) ∧ getQ st .DIREVENTS ≠ [] ∧
        (backOf (getQ st .DIREVENTS)).localnode = l ∧
        (backOf (getQ st .DIREVENTS)).path = localpath
    · by_cases h2 : (backOf (getQ st .DIREVENTS)).timestamp ≠ 0
      · right
        refine ⟨h1.2.1, ?_⟩
        unfold notify
        rw [if_pos h1, if_pos h2]
        simp
      · left
        unfold notify
        rw [if_pos h1, if_neg h2]
    · left
      unfold notify
      rw [if_neg h1, if_pos ⟨rfl, hs, hi, rfl, hself⟩]
  rcases hchar with heq | ⟨hne, heq⟩
  · rw [heq]
    exact ⟨fun _ => rfl, rfl⟩
  · refine ⟨?_, ?_⟩
    · intro q2
      by_cases h2 : q2 = .DIREVENTS
      · subst h2
        rw [heq, getQ_setQ_same]
        exact length_dropLast_append _ _ hne
      · rw [heq, getQ_setQ_ne _ _ _ _ h2]
    · rw [heq, setQ_syncactivity]

/-- Instantiation of `notify_drops_self_notification` on a concrete
environment whose probes agree with the recorded node (a folder with
matching fsid and name): the queue stays at one entry and syncactivity stays
off. -/
theorem notify_drops_self_notification_witness :
    (getQ (notify
        ⟨true, false, 9, ⟨true, false, true, 11, 1, 0, 0⟩,
          some ⟨true, true, false, some [97], [97], 11, 1, 0, 0⟩⟩
        ⟨[⟨4, some 2, [98]⟩], [], [], false⟩ .DIREVENTS (some 3) [99] false) .DIREVENTS).length =
      1 ∧
    (notify
        ⟨true, false, 9, ⟨true, false, true, 11, 1, 0, 0⟩,
          some ⟨true, true, false, some [97], [97], 11, 1, 0, 0⟩⟩
        ⟨[⟨4, some 2, [98]⟩], [], [], false⟩ .DIREVENTS (some 3) [99] false).syncactivity =
      false := by
  have h := notify_drops_self_notification
    ⟨true, false, 9, ⟨true, false, true, 11, 1, 0, 0⟩,
      some ⟨true, true, false, some [97], [97], 11, 1, 0, 0⟩⟩
    ⟨[⟨4, some 2, [98]⟩], [], [], false⟩ (some 3) [99] rfl rfl (by decide)
  refine ⟨?_, ?_⟩
  · rw [h.1 .DIREVENTS]
    decide
  · rw [h.2]

/-- Per-node state relevant to the fsid index: the stored filesystem id and
whether the node's `fsid_it` currently points at a map entry. The iterator
being `end` is modelled by `inIdx = false`; whenever it is not `end` it
points at the entry keyed by the node's own `fsid`, which is the
correspondence every code path maintains. -/
structure FsidNodeSt where
  fsid : Nat
  inIdx : Bool
deriving DecidableEq

/-- The world for the fsid-index claims: the set of live LocalNodes (by id)
and the `fsidnode` map from filesystem id to node id. -/
structure FsidWorld where
  nodes : Nat → Option FsidNodeSt
  idx : Nat → Option Nat

/-- A fresh LocalNode: `LocalNode::init` (and `unserialize`) set `fsid_it`
to `fsidnodes.end()`, so a node starts outside the index. -/
def fsidCreate (w : FsidWorld) (n : Nat) : FsidWorld :=
  match w.nodes n with
  | some _ => w
  | none => { w with nodes := fun id => if id = n then some ⟨0, false⟩ else w.nodes id }

/-- Outcome of `setfsid` when the insert finds the key free. -/
def setfsidInsert (w : FsidWorld) (n : Nat) (f : Nat) (st : FsidNodeSt) : FsidWorld :=
  { nodes := fun id => if id = n then some ⟨f, true⟩ else w.nodes id,
    idx := fun k =>
      if k = f then some n
      else if st.inIdx = true ∧ k = st.fsid then none else w.idx k }

/-- Outcome of `setfsid` when the insert finds the key held by node `m`:
the previous owner's iterator is cleared and the entry repointed. -/
def setfsidSteal (w : FsidWorld) (n : Nat) (f : Nat) (st : FsidNodeSt) (m : Nat) : FsidWorld :=
  { nodes := fun id =>
      if id = n then some ⟨f, true⟩
      else if id = m then (w.nodes id).map (fun s => { s with inIdx := false })
      else w.nodes id,
    idx := fun k =>
      if k = f then some n
      else if st.inIdx = true ∧ k = st.fsid then none else w.idx k }

/-- Embedding of `LocalNode::setfsid` (node.cpp): if the node already holds
an entry for the same fsid, return; otherwise erase its entry, store the new
fsid and insert; when the key is occupied, revoke the previous owner. The
inner scrutinee is the post-erase lookup of the new key. -/
def setfsid (w : FsidWorld) (n : Nat) (newfsid : Nat) : FsidWorld :=
  match w.nodes n with
  | none => w
  | some st =>
    if st.inIdx = true ∧ newfsid = st.fsid then w
    else
      match (if st.inIdx = true ∧ newfsid = st.fsid then none else w.idx newfsid) with
      | none => setfsidInsert w n newfsid st
      | some m => setfsidSteal w n newfsid st m

/-- Embedding of the fsid part of `LocalNode::~LocalNode` (node.cpp): a node
with a live iterator erases its entry, then the node goes away. -/
def fsidDestroy (w : FsidWorld) (n : Nat) : FsidWorld :=
  match w.nodes n with
  | none => w
  | some st =>
    { nodes := fun id => if id = n then none else w.nodes id,
      idx := fun k => if st.inIdx = true ∧ k = st.fsid then none else w.idx k }

/-- The operations that touch the fsid index. -/
inductive FsidOp where
  | create (n : Nat)
  | assign (n : Nat) (f : Nat)
  | destroy (n : Nat)

def fsidStep (w : FsidWorld) : FsidOp → FsidWorld
  | .create n => fsidCreate w n
  | .assign n f => setfsid w n f
  | .destroy n => fsidDestroy w n

def fsidWorld0 : FsidWorld := { nodes := fun _ => none, idx := fun _ => none }

def fsidRun (ops : List FsidOp) : FsidWorld :=
  ops.foldl fsidStep fsidWorld0

/-- Coherence of the fsid index: an indexed node owns the entry at its fsid,
and every entry points back at a live indexed node with that fsid. -/
def FsidInv (w : FsidWorld) : Prop :=
  (∀ n st, w.nodes n = some st → st.inIdx = true → w.idx st.fsid = some n) ∧
  (∀ f m, w.idx f = some m →
    ∃ st, w.nodes m = some st ∧ st.inIdx = true ∧ st.fsid = f)

theorem setfsid_absent {w : FsidWorld} {n : Nat} (f : Nat) (hn : w.nodes n = none) :
    setfsid w n f = w := by
  unfold setfsid
  rw [hn]

theorem setfsid_same {w : FsidWorld} {n f : Nat} {st : FsidNodeSt}
    (hn : w.nodes n = some st) (h : st.inIdx = true ∧ f = st.fsid) :
    setfsid w n f = w := by
  unfold setfsid
  rw [hn]
  simp only [if_pos h]

theorem setfsid_insert_eq {w : FsidWorld} {n f : Nat} {st : FsidNodeSt}
    (hn : w.nodes n = some st) (h : ¬ (st.inIdx = true ∧ f = st.fsid))
    (hfree : w.idx f = none) :
    setfsid w n f = setfsidInsert w n f st := by
  unfold setfsid
  rw [hn]
  simp only [if_neg h, hfree]

theorem setfsid_steal_eq {w : FsidWorld} {n f m : Nat} {st : FsidNodeSt}
    (hn : w.nodes n = some st) (h : ¬ (st.inIdx = true ∧ f = st.fsid))
    (hocc : w.idx f = some m) :
    setfsid w n f = setfsidSteal w n f st m := by
  unfold setfsid
  rw [hn]
  simp only [if_neg h, hocc]

theorem fsidInv_create {w : FsidWorld} (hw : FsidInv w) (n : Nat) :
    FsidInv (fsidCreate w n) := by
  unfold fsidCreate
  match hn : w.nodes n with
  | some st => exact hw
  | none =>
    constructor
    · intro p st hp hidx
      by_cases hpn : p = n
      · subst hpn
        simp only [if_pos rfl] at hp
        cases hp
        exact absurd hidx (by simp)
      · simp only [if_neg hpn] at hp
        exact hw.1 p st hp hidx
    · intro f m hf
      obtain ⟨st, hm, hin, hfs⟩ := hw.2 f m hf
      refine ⟨st, ?_, hin, hfs⟩
      have hmn : m ≠ n := by
        intro he
        subst he
        rw [hn] at hm
        cases hm
      simp only [if_neg hmn]
      exact hm

theorem fsidInv_insert {w : FsidWorld} (hw : FsidInv w) {n f : Nat} {st : FsidNodeSt}
    (hn : w.nodes n = some st) (hfree : w.idx f = none) :
    FsidInv (setfsidInsert w n f st) := by
  constructor
  · intro p stp hp hpidx
    unfold setfsidInsert at hp ⊢
    by_cases hpn : p = n
    · subst hpn
      simp only [if_pos rfl] at hp
      cases hp
      simp
    · simp only [if_neg hpn] at hp
      have hold := hw.1 p stp hp hpidx
      have hfsne : stp.fsid ≠ f := by
        intro he
        rw [he, hfree] at hold
        cases hold
      simp only [if_neg hfsne]
      by_cases hhit : st.inIdx = true ∧ stp.fsid = st.fsid
      · have hn2 := hw.1 n st hn hhit.1
        rw [← hhit.2, hold] at hn2
        cases hn2
        exact absurd rfl hpn
      · simp only [if_neg hhit]
        exact hold
  · intro g m hg
    unfold setfsidInsert at hg ⊢
    by_cases hgf : g = f
    · subst hgf
      simp only [if_pos rfl] at hg
      cases hg
      exact ⟨⟨g, true⟩, by simp, rfl, rfl⟩
    · simp only [if_neg hgf] at hg
      by_cases hhit : st.inIdx = true ∧ g = st.fsid
      · rw [if_pos hhit] at hg
        cases hg
      · rw [if_neg hhit] at hg
        obtain ⟨stm, hm, hin, hfs⟩ := hw.2 g m hg
        have hmn : m ≠ n := by
          intro he
          subst he
          rw [hn] at hm
          cases hm
          exact hhit ⟨hin, hfs.symm⟩
        refine ⟨stm, ?_, hin, hfs⟩
        simp only [if_neg hmn]
        exact hm

theorem fsidInv_steal {w : FsidWorld} (hw : FsidInv w) {n f m : Nat} {st : FsidNodeSt}
    (hn : w.nodes n = some st) (h : ¬ (st.inIdx = true ∧ f = st.fsid))
    (hocc : w.idx f = some m) :
    FsidInv (setfsidSteal w n f st m) := by
  obtain ⟨stm, hm, hmin, hmfs⟩ := hw.2 f m hocc
  have hmn : m ≠ n := by
    intro he
    subst he
    rw [hn] at hm
    cases hm
    exact h ⟨hmin, hmfs.symm⟩
  constructor
  · intro p stp hp hpidx
    unfold setfsidSteal at hp ⊢
    by_cases hpn : p = n
    · subst hpn
      simp only [if_pos rfl] at hp
      cases hp
      simp
    · simp only [if_neg hpn] at hp
      by_cases hpm : p = m
      · subst hpm
        rw [if_pos rfl, hm] at hp
        simp only [Option.map_some'] at hp
        cases hp
        exact absurd hpidx (by simp)
      · rw [if_neg hpm] at hp
        have hold := hw.1 p stp hp hpidx
        have hfsne : stp.fsid ≠ f := by
          intro he
          rw [he, hocc] at hold
          cases hold
          exact hpm rfl
        simp only [if_neg hfsne]
        by_cases hhit : st.inIdx = true ∧ stp.fsid = st.fsid
        · have hn2 := hw.1 n st hn hhit.1
          rw [← hhit.2, hold] at hn2
          cases hn2
          exact absurd rfl hpn
        · simp only [if_neg hhit]
          exact hold
  · intro g p hg
    unfold setfsidSteal at hg ⊢
    by_cases hgf : g = f
    · subst hgf
      simp only [if_pos rfl] at hg
      cases hg
      exact ⟨⟨g, true⟩, by simp, rfl, rfl⟩
    · simp only [if_neg hgf] at hg
      by_cases hhit : st.inIdx = true ∧ g = st.fsid
      · rw [if_pos hhit] at hg
        cases hg
      · rw [if_neg hhit] at hg
        obtain ⟨stp, hp, hin, hfs⟩ := hw.2 g p hg
        have hpn : p ≠ n := by
          intro he
          subst he
          rw [hn] at hp
          cases hp
          exact hhit ⟨hin, hfs.symm⟩
        refine ⟨stp, ?_, hin, hfs⟩
        simp only [if_neg hpn]
        by_cases hpm : p = m
        · subst hpm
          rw [hm] at hp
          cases hp
          rw [hmfs] at hfs
          exact absurd hfs.symm hgf
        · rw [if_neg hpm]
          exact hp

theorem fsidInv_assign {w : FsidWorld} (hw : FsidInv w) (n f : Nat) :
    FsidInv (setfsid w n f) := by
  match hn : w.nodes n with
  | none =>
    rw [setfsid_absent f hn]
    exact hw
  | some st =>
    by_cases hret : st.inIdx = true ∧ f = st.fsid
    · rw [setfsid_same hn hret]
      exact hw
    · match hidx : w.idx f with
      | none =>
        rw [setfsid_insert_eq hn hret hidx]
        exact fsidInv_insert hw hn hidx
      | some m =>
        rw [setfsid_steal_eq hn hret hidx]
        exact fsidInv_steal hw hn hret hidx

theorem fsidInv_destroy {w : FsidWorld} (hw : FsidInv w) (n : Nat) :
    FsidInv (fsidDestroy w n) := by
  unfold fsidDestroy
  match hn : w.nodes n with
  | none => exact hw
  | some st =>
    constructor
    · intro p stp hp hpidx
      by_cases hpn : p = n
      · subst hpn
        simp only [if_pos rfl] at hp
        cases hp
      · simp only [if_neg hpn] at hp
        have hold := hw.1 p stp hp hpidx
        by_cases hhit : st.inIdx = true ∧ stp.fsid = st.fsid
        · have hn2 := hw.1 n st hn hhit.1
          rw [← hhit.2, hold] at hn2
          cases hn2
          exact absurd rfl hpn
        · simp only [if_neg hhit]
          exact hold
    · intro g p hg
      simp only at hg
      by_cases hhit : st.inIdx = true ∧ g = st.fsid
      · rw [if_pos hhit] at hg
        cases hg
      · rw [if_neg hhit] at hg
        obtain ⟨stp, hp, hin, hfs⟩ := hw.2 g p hg
        have hpn : p ≠ n := by
          intro he
          subst he
          rw [hn] at hp
          cases hp
          exact hhit ⟨hin, hfs.symm⟩
        refine ⟨stp, ?_, hin, hfs⟩
        simp only [if_neg hpn]
        exact hp

theorem fsidInv_run_from {w : FsidWorld} (hw : FsidInv w) (ops : List FsidOp) :
    FsidInv (ops.foldl fsidStep w) := by
  induction ops generalizing w with
  | nil => exact hw
  | cons op rest ih =>
    refine ih ?_
    match op with
    | .create n => exact fsidInv_create hw n
    | .assign n f => exact fsidInv_assign hw n f
    | .destroy n => exact fsidInv_destroy hw n

theorem fsidInv_run (ops : List FsidOp) : FsidInv (fsidRun ops) := by
  refine fsidInv_run_from ⟨?_, ?_⟩ ops
  · intro n st h
    cases h
  · intro f m h
    cases h

/-- C4: after any sequence of node creations, `setfsid` assignments and node
destructions starting from the empty state, the fsid→node index is coherent
(`FsidInv`); in particular two distinct indexed nodes never share an fsid, and
a `setfsid` binding an fsid currently held by another node revokes that
node's index entry and installs the assignee as the sole entry for the id. -/
theorem setfsid_unique_index (ops : List FsidOp) (n f m : Nat) (st : FsidNodeSt)
    (hn : (fsidRun ops).nodes n = some st)
    (hret : ¬ (st.inIdx = true ∧ f = st.fsid))
    (hocc : (fsidRun ops).idx f = some m) :
    FsidInv (fsidRun ops) ∧
    (∀ p q stp stq, (fsidRun ops).nodes p = some stp →
      (fsidRun ops).nodes q = some stq →
      stp.inIdx = true → stq.inIdx = true → stp.fsid = stq.fsid → p = q) ∧
    m ≠ n ∧
    (setfsid (fsidRun ops) n f).idx f = some n ∧
    (∀ stm, (setfsid (fsidRun ops) n f).nodes m = some stm → stm.inIdx = false) := by
  have hw := fsidInv_run ops
  obtain ⟨stm, hm, hmin, hmfs⟩ := hw.2 f m hocc
  have hmn : m ≠ n := by
    intro he
    subst he
    rw [hn] at hm
    cases hm
    exact hret ⟨hmin, hmfs.symm⟩
  have hsteal := setfsid_steal_eq hn hret hocc
  refine ⟨hw, ?_, hmn, ?_, ?_⟩
  · intro p q stp stq hp hq hip hiq hfs
    have h1 := hw.1 p stp hp hip
    have h2 := hw.1 q stq hq hiq
    rw [hfs, h2] at h1
    cases h1
    rfl
  · rw [hsteal]
    simp [setfsidSteal]
  · intro stm2 hm2
    rw [hsteal] at hm2
    unfold setfsidSteal at hm2
    simp only [if_neg hmn, if_pos rfl] at hm2
    rw [hm] at hm2
    simp only [Option.map_some'] at hm2
    cases hm2
    rfl

theorem setfsid_unique_index_witness :
    (fsidRun [FsidOp.create 1, FsidOp.assign 1 5, FsidOp.create 2]).nodes 2
      = some ⟨0, false⟩ ∧
    (1 : Nat) ≠ 2 ∧
    (setfsid (fsidRun [FsidOp.create 1, FsidOp.assign 1 5, FsidOp.create 2]) 2 5).idx 5
      = some 2 ∧
    (∀ stm,
      (setfsid (fsidRun [FsidOp.create 1, FsidOp.assign 1 5, FsidOp.create 2]) 2 5).nodes 1
        = some stm → stm.inIdx = false) := by
  have h := setfsid_unique_index [FsidOp.create 1, FsidOp.assign 1 5, FsidOp.create 2]
    2 5 1 ⟨0, false⟩ rfl (by decide) rfl
  exact ⟨rfl, h.2.2.1, h.2.2.2.1, h.2.2.2.2⟩

/-- Pairing state of a LocalNode: its `node` cross-reference pointer to a
cloud Node (by id) and its `deleted` flag. -/
structure SyncSt where
  node : Option Nat
  deleted : Bool
deriving DecidableEq

/-- Pairing state of a cloud Node: its `localnode` back-link (by id). -/
structure CloudSt where
  localnode : Option Nat
deriving DecidableEq

/-- The world for the pairing claims: live LocalNodes and live cloud Nodes. -/
structure PairWorld where
  syncs : Nat → Option SyncSt
  clouds : Nat → Option CloudSt

/-- Assignment to a LocalNode's `deleted` flag. -/
def setDeleted (w : PairWorld) (s : Nat) (b : Bool) : PairWorld :=
  { w with syncs := fun id =>
      if id = s then (w.syncs id).map (fun st => { st with deleted := b })
      else w.syncs id }

/-- Modelled from the spec: inner step of `node.reset()` once the LocalNode's
state is at hand — if it pointed at a cloud Node, that Node's back-link is
cleared along with the pointer. -/
def unlinkSyncGo (w : PairWorld) (s : Nat) (st : SyncSt) : PairWorld :=
  match st.node with
  | none => w
  | some c =>
    { syncs := fun id => if id = s then some { st with node := none } else w.syncs id,
      clouds := fun id =>
        if id = c then (w.clouds id).map (fun cs => { cs with localnode := none })
        else w.clouds id }

/-- Modelled from the spec: `node.reset()` on a crossref pair pointer unlinks
both ends. -/
def unlinkSyncSide (w : PairWorld) (s : Nat) : PairWorld :=
  match w.syncs s with
  | none => w
  | some st => unlinkSyncGo w s st

/-- Modelled from the spec: inner step of `localnode.reset()` on the cloud
side — if the back-link pointed at a LocalNode, that node's `node` pointer is
cleared along with the back-link. -/
def unlinkCloudGo (w : PairWorld) (c : Nat) (cs : CloudSt) : PairWorld :=
  match cs.localnode with
  | none => w
  | some s =>
    { syncs := fun id =>
        if id = s then (w.syncs id).map (fun st => { st with node := none })
        else w.syncs id,
      clouds := fun id => if id = c then some { localnode := none } else w.clouds id }

/-- Modelled from the spec: `cnode->localnode.reset()` unlinks both ends of
the cloud Node's pairing. -/
def unlinkCloudSide (w : PairWorld) (c : Nat) : PairWorld :=
  match w.clouds c with
  | none => w
  | some cs => unlinkCloudGo w c cs

/-- Modelled from the spec: `node.crossref(cnode, this)` points the two ends
at each other. -/
def linkPair (w : PairWorld) (s c : Nat) : PairWorld :=
  { syncs := fun id =>
      if id = s then (w.syncs id).map (fun st => { st with node := some c })
      else w.syncs id,
    clouds := fun id =>
      if id = c then (w.clouds id).map (fun _ => { localnode := some s })
      else w.clouds id }

/-- The `cnode`-present arm of `LocalNode::setnode`: reset the cloud node's
pairing, then cross-reference. Dereferencing `cnode` needs it live. -/
def setnodeLink (w2 : PairWorld) (s c : Nat) : PairWorld :=
  match w2.clouds c with
  | none => w2
  | some _ => linkPair (unlinkCloudSide w2 c) s c

/-- Dispatch on the `cnode` argument of `LocalNode::setnode`. -/
def setnodeGo (w2 : PairWorld) (s : Nat) (cnode : Option Nat) : PairWorld :=
  match cnode with
  | none => w2
  | some c => setnodeLink w2 s c

/-- Embedding of `LocalNode::setnode` (node.cpp): clear `deleted`, reset the
current pairing, and when a cloud node is supplied, reset its pairing and
cross-reference the two. -/
def setnode (w : PairWorld) (s : Nat) (cnode : Option Nat) : PairWorld :=
  match w.syncs s with
  | none => w
  | some _ => setnodeGo (unlinkSyncSide (setDeleted w s false) s) s cnode

/-- Inner step of the sync part of `Node::~Node` once the Node's state is at
hand: if paired, mark the LocalNode `deleted` and reset the back-link, then
drop the Node. -/
def destroyCloudGo (w : PairWorld) (c : Nat) (cs : CloudSt) : PairWorld :=
  match cs.localnode with
  | none =>
    { syncs := w.syncs, clouds := fun id => if id = c then none else w.clouds id }
  | some s =>
    { syncs := (unlinkCloudSide (setDeleted w s true) c).syncs,
      clouds := fun id =>
        if id = c then none else (unlinkCloudSide (setDeleted w s true) c).clouds id }

/-- Embedding of the sync part of `Node::~Node` (node.cpp). -/
def destroyCloud (w : PairWorld) (c : Nat) : PairWorld :=
  match w.clouds c with
  | none => w
  | some cs => destroyCloudGo w c cs

/-- Embedding of the pairing part of `LocalNode::~LocalNode` (node.cpp): the
crossref member going away unlinks both ends, then the LocalNode is dropped. -/
def destroySync (w : PairWorld) (s : Nat) : PairWorld :=
  match w.syncs s with
  | none => w
  | some _ =>
    { syncs := fun id => if id = s then none else (unlinkSyncSide w s).syncs id,
      clouds := (unlinkSyncSide w s).clouds }

/-- A fresh LocalNode starts unpaired and not deleted. -/
def createSync (w : PairWorld) (s : Nat) : PairWorld :=
  match w.syncs s with
  | some _ => w
  | none =>
    { w with syncs := fun id => if id = s then some ⟨none, false⟩ else w.syncs id }

/-- A fresh cloud Node starts with a null back-link. -/
def createCloud (w : PairWorld) (c : Nat) : PairWorld :=
  match w.clouds c with
  | some _ => w
  | none =>
    { w with clouds := fun id => if id = c then some ⟨none⟩ else w.clouds id }

/-- The operations that touch the pairing cross-references. -/
inductive PairOp where
  | createSync (s : Nat)
  | createCloud (c : Nat)
  | setnode (s : Nat) (cnode : Option Nat)
  | destroyCloud (c : Nat)
  | destroySync (s : Nat)

def pairStep (w : PairWorld) : PairOp → PairWorld
  | .createSync s => createSync w s
  | .createCloud c => createCloud w c
  | .setnode s cnode => setnode w s cnode
  | .destroyCloud c => destroyCloud w c
  | .destroySync s => destroySync w s

def pairWorld0 : PairWorld := { syncs := fun _ => none, clouds := fun _ => none }

def pairRun (ops : List PairOp) : PairWorld :=
  ops.foldl pairStep pairWorld0

/-- Bidirectional coherence of the pairing: a paired LocalNode's cloud Node
is live and back-links exactly it, and a live back-link points at a live
LocalNode paired with exactly that Node. -/
def PairInv (w : PairWorld) : Prop :=
  (∀ s st c, w.syncs s = some st → st.node = some c →
    ∃ cs, w.clouds c = some cs ∧ cs.localnode = some s) ∧
  (∀ c cs s, w.clouds c = some cs → cs.localnode = some s →
    ∃ st, w.syncs s = some st ∧ st.node = some c)

theorem unlinkSyncSide_none {w : PairWorld} {s : Nat} (hs : w.syncs s = none) :
    unlinkSyncSide w s = w := by
  unfold unlinkSyncSide
  rw [hs]

theorem unlinkSyncSide_go {w : PairWorld} {s : Nat} {st : SyncSt}
    (hs : w.syncs s = some st) : unlinkSyncSide w s = unlinkSyncGo w s st := by
  unfold unlinkSyncSide
  rw [hs]

theorem unlinkSyncGo_none {w : PairWorld} {s : Nat} {st : SyncSt}
    (hn : st.node = none) : unlinkSyncGo w s st = w := by
  unfold unlinkSyncGo
  rw [hn]

theorem unlinkSyncGo_some {w : PairWorld} {s : Nat} {st : SyncSt} {c : Nat}
    (hn : st.node = some c) :
    unlinkSyncGo w s st =
      { syncs := fun id => if id = s then some { st with node := none } else w.syncs id,
        clouds := fun id =>
          if id = c then (w.clouds id).map (fun cs => { cs with localnode := none })
          else w.clouds id } := by
  unfold unlinkSyncGo
  rw [hn]

theorem unlinkCloudSide_none {w : PairWorld} {c : Nat} (hc : w.clouds c = none) :
    unlinkCloudSide w c = w := by
  unfold unlinkCloudSide
  rw [hc]

theorem unlinkCloudSide_go {w : PairWorld} {c : Nat} {cs : CloudSt}
    (hc : w.clouds c = some cs) : unlinkCloudSide w c = unlinkCloudGo w c cs := by
  unfold unlinkCloudSide
  rw [hc]

theorem unlinkCloudGo_none {w : PairWorld} {c : Nat} {cs : CloudSt}
    (hl : cs.localnode = none) : unlinkCloudGo w c cs = w := by
  unfold unlinkCloudGo
  rw [hl]

theorem unlinkCloudGo_some {w : PairWorld} {c : Nat} {cs : CloudSt} {s : Nat}
    (hl : cs.localnode = some s) :
    unlinkCloudGo w c cs =
      { syncs := fun id =>
          if id = s then (w.syncs id).map (fun st => { st with node := none })
          else w.syncs id,
        clouds := fun id => if id = c then some { localnode := none } else w.clouds id } := by
  unfold unlinkCloudGo
  rw [hl]

theorem setnodeLink_none {w2 : PairWorld} {s c : Nat} (hc2 : w2.clouds c = none) :
    setnodeLink w2 s c = w2 := by
  unfold setnodeLink
  rw [hc2]

theorem setnodeLink_some {w2 : PairWorld} {s c : Nat} {cs2 : CloudSt}
    (hc2 : w2.clouds c = some cs2) :
    setnodeLink w2 s c = linkPair (unlinkCloudSide w2 c) s c := by
  unfold setnodeLink
  rw [hc2]

theorem setnode_absent {w : PairWorld} {s : Nat} (cnode : Option Nat)
    (hs : w.syncs s = none) : setnode w s cnode = w := by
  unfold setnode
  rw [hs]

theorem setnode_go {w : PairWorld} {s : Nat} {st : SyncSt} (cnode : Option Nat)
    (hs : w.syncs s = some st) :
    setnode w s cnode = setnodeGo (unlinkSyncSide (setDeleted w s false) s) s cnode := by
  unfold setnode
  rw [hs]

theorem destroyCloud_none {w : PairWorld} {c : Nat} (hc : w.clouds c = none) :
    destroyCloud w c = w := by
  unfold destroyCloud
  rw [hc]

theorem destroyCloud_go {w : PairWorld} {c : Nat} {cs : CloudSt}
    (hc : w.clouds c = some cs) : destroyCloud w c = destroyCloudGo w c cs := by
  unfold destroyCloud
  rw [hc]

theorem destroyCloudGo_none {w : PairWorld} {c : Nat} {cs : CloudSt}
    (hl : cs.localnode = none) :
    destroyCloudGo w c cs =
      { syncs := w.syncs, clouds := fun id => if id = c then none else w.clouds id } := by
  unfold destroyCloudGo
  rw [hl]

theorem destroyCloudGo_some {w : PairWorld} {c : Nat} {cs : CloudSt} {s : Nat}
    (hl : cs.localnode = some s) :
    destroyCloudGo w c cs =
      { syncs := (unlinkCloudSide (setDeleted w s true) c).syncs,
        clouds := fun id =>
          if id = c then none else (unlinkCloudSide (setDeleted w s true) c).clouds id } := by
  unfold destroyCloudGo
  rw [hl]

theorem destroySync_absent {w : PairWorld} {s : Nat} (hs : w.syncs s = none) :
    destroySync w s = w := by
  unfold destroySync
  rw [hs]

theorem destroySync_go {w : PairWorld} {s : Nat} {st : SyncSt}
    (hs : w.syncs s = some st) :
    destroySync w s =
      { syncs := fun id => if id = s then none else (unlinkSyncSide w s).syncs id,
        clouds := (unlinkSyncSide w s).clouds } := by
  unfold destroySync
  rw [hs]

theorem setDeleted_syncs_self {w : PairWorld} {s : Nat} {st : SyncSt} (b : Bool)
    (hs : w.syncs s = some st) :
    (setDeleted w s b).syncs s = some { st with deleted := b } := by
  simp only [setDeleted, if_pos rfl]
  rw [hs]
  simp

theorem unlinkSyncSide_syncs_self {w : PairWorld} {s : Nat} {st : SyncSt}
    (hs : w.syncs s = some st) :
    (unlinkSyncSide w s).syncs s = some { st with node := none } := by
  rw [unlinkSyncSide_go hs]
  match hn : st.node with
  | none =>
    rw [unlinkSyncGo_none hn, hs]
    obtain ⟨n0, d0⟩ := st
    have hn0 : n0 = none := hn
    rw [hn0]
  | some c =>
    rw [unlinkSyncGo_some hn]
    simp

theorem unlinkSyncSide_clouds_pres {w : PairWorld} (s : Nat) {c : Nat} {cs : CloudSt}
    (hc : w.clouds c = some cs) :
    ∃ cs', (unlinkSyncSide w s).clouds c = some cs' := by
  match hs : w.syncs s with
  | none =>
    rw [unlinkSyncSide_none hs]
    exact ⟨cs, hc⟩
  | some st =>
    rw [unlinkSyncSide_go hs]
    match hn : st.node with
    | none =>
      rw [unlinkSyncGo_none hn]
      exact ⟨cs, hc⟩
    | some c0 =>
      rw [unlinkSyncGo_some hn]
      by_cases hcc : c = c0
      · refine ⟨{ cs with localnode := none }, ?_⟩
        simp only [if_pos hcc]
        rw [hc, Option.map_some']
      · refine ⟨cs, ?_⟩
        simp only [if_neg hcc]
        exact hc

theorem unlinkCloudSide_clouds_self {w : PairWorld} {c : Nat} {cs : CloudSt}
    (hc : w.clouds c = some cs) :
    ∃ cs', (unlinkCloudSide w c).clouds c = some cs' ∧ cs'.localnode = none := by
  rw [unlinkCloudSide_go hc]
  match hl : cs.localnode with
  | none =>
    rw [unlinkCloudGo_none hl]
    exact ⟨cs, hc, hl⟩
  | some s =>
    rw [unlinkCloudGo_some hl]
    refine ⟨{ localnode := none }, ?_, rfl⟩
    simp

theorem unlinkCloudSide_syncs_pres_none {w : PairWorld} {s : Nat} {st : SyncSt} (c : Nat)
    (hs : w.syncs s = some st) (hn : st.node = none) :
    ∃ st', (unlinkCloudSide w c).syncs s = some st' ∧ st'.node = none ∧
      st'.deleted = st.deleted := by
  match hc : w.clouds c with
  | none =>
    rw [unlinkCloudSide_none hc]
    exact ⟨st, hs, hn, rfl⟩
  | some cs =>
    rw [unlinkCloudSide_go hc]
    match hl : cs.localnode with
    | none =>
      rw [unlinkCloudGo_none hl]
      exact ⟨st, hs, hn, rfl⟩
    | some s0 =>
      rw [unlinkCloudGo_some hl]
      by_cases hss : s = s0
      · refine ⟨{ st with node := none }, ?_, rfl, rfl⟩
        simp only [if_pos hss]
        rw [hs, Option.map_some']
      · refine ⟨st, ?_, hn, rfl⟩
        simp only [if_neg hss]
        exact hs

theorem pairInv_setDeleted {w : PairWorld} (hw : PairInv w) (s : Nat) (b : Bool) :
    PairInv (setDeleted w s b) := by
  constructor
  · intro p st c hp hc
    unfold setDeleted at hp
    by_cases hps : p = s
    · simp only [if_pos hps] at hp
      match h0 : w.syncs p with
      | none =>
        rw [h0] at hp
        cases hp
      | some st0 =>
        rw [h0] at hp
        simp only [Option.map_some'] at hp
        cases hp
        exact hw.1 p st0 c h0 hc
    · simp only [if_neg hps] at hp
      exact hw.1 p st c hp hc
  · intro c cs p hc hl
    obtain ⟨st, hp, hn⟩ := hw.2 c cs p hc hl
    by_cases hps : p = s
    · refine ⟨{ st with deleted := b }, ?_, hn⟩
      simp only [setDeleted, if_pos hps]
      rw [show w.syncs p = some st from hp, Option.map_some']
    · refine ⟨st, ?_, hn⟩
      simp only [setDeleted, if_neg hps]
      exact hp

theorem pairInv_unlinkSyncGo {w : PairWorld} (hw : PairInv w) {s : Nat} {st : SyncSt}
    (hs : w.syncs s = some st) : PairInv (unlinkSyncGo w s st) := by
  match hn : st.node with
  | none =>
    rw [unlinkSyncGo_none hn]
    exact hw
  | some c =>
    rw [unlinkSyncGo_some hn]
    obtain ⟨cs, hc, hback⟩ := hw.1 s st c hs hn
    constructor
    · intro p stp c' hp hc'
      by_cases hps : p = s
      · simp only [if_pos hps] at hp
        cases hp
        simp at hc'
      · simp only [if_neg hps] at hp
        obtain ⟨cs', hc2, hb2⟩ := hw.1 p stp c' hp hc'
        have hcc : c' ≠ c := by
          intro he
          rw [he, hc] at hc2
          cases hc2
          rw [hback] at hb2
          cases hb2
          exact hps rfl
        refine ⟨cs', ?_, hb2⟩
        simp only [if_neg hcc]
        exact hc2
    · intro d csd p hd hlp
      by_cases hdc : d = c
      · simp only [if_pos hdc, hdc, hc, Option.map_some'] at hd
        cases hd
        simp at hlp
      · simp only [if_neg hdc] at hd
        obtain ⟨st', hp', hn'⟩ := hw.2 d csd p hd hlp
        have hps : p ≠ s := by
          intro he
          rw [he, hs] at hp'
          cases hp'
          rw [hn] at hn'
          cases hn'
          exact hdc rfl
        refine ⟨st', ?_, hn'⟩
        simp only [if_neg hps]
        exact hp'

theorem pairInv_unlinkSyncSide {w : PairWorld} (hw : PairInv w) (s : Nat) :
    PairInv (unlinkSyncSide w s) := by
  match hs : w.syncs s with
  | none =>
    rw [unlinkSyncSide_none hs]
    exact hw
  | some st =>
    rw [unlinkSyncSide_go hs]
    exact pairInv_unlinkSyncGo hw hs

theorem pairInv_unlinkCloudGo {w : PairWorld} (hw : PairInv w) {c : Nat} {cs : CloudSt}
    (hc : w.clouds c = some cs) : PairInv (unlinkCloudGo w c cs) := by
  match hl : cs.localnode with
  | none =>
    rw [unlinkCloudGo_none hl]
    exact hw
  | some s =>
    rw [unlinkCloudGo_some hl]
    obtain ⟨st, hs, hnode⟩ := hw.2 c cs s hc hl
    constructor
    · intro p stp c' hp hc'
      by_cases hps : p = s
      · simp only [if_pos hps, hps, hs, Option.map_some'] at hp
        cases hp
        simp at hc'
      · simp only [if_neg hps] at hp
        obtain ⟨cs', hc2, hb2⟩ := hw.1 p stp c' hp hc'
        have hcc : c' ≠ c := by
          intro he
          rw [he, hc] at hc2
          cases hc2
          rw [hl] at hb2
          cases hb2
          exact hps rfl
        refine ⟨cs', ?_, hb2⟩
        simp only [if_neg hcc]
        exact hc2
    · intro d csd p hd hlp
      by_cases hdc : d = c
      · simp only [if_pos hdc] at hd
        cases hd
        simp at hlp
      · simp only [if_neg hdc] at hd
        obtain ⟨st', hp', hn'⟩ := hw.2 d csd p hd hlp
        have hps : p ≠ s := by
          intro he
          rw [he, hs] at hp'
          cases hp'
          rw [hnode] at hn'
          cases hn'
          exact hdc rfl
        refine ⟨st', ?_, hn'⟩
        simp only [if_neg hps]
        exact hp'

theorem pairInv_unlinkCloudSide {w : PairWorld} (hw : PairInv w) (c : Nat) :
    PairInv (unlinkCloudSide w c) := by
  match hc : w.clouds c with
  | none =>
    rw [unlinkCloudSide_none hc]
    exact hw
  | some cs =>
    rw [unlinkCloudSide_go hc]
    exact pairInv_unlinkCloudGo hw hc

theorem pairInv_linkPair {w : PairWorld} (hw : PairInv w) {s c : Nat}
    {st : SyncSt} {cs : CloudSt}
    (hs : w.syncs s = some st) (hsn : st.node = none)
    (hc : w.clouds c = some cs) (hcl : cs.localnode = none) :
    PairInv (linkPair w s c) := by
  constructor
  · intro p stp c' hp hc'
    unfold linkPair at hp
    by_cases hps : p = s
    · simp only [if_pos hps, hps, hs, Option.map_some'] at hp
      cases hp
      have hx : some c = some c' := hc'
      cases hx
      refine ⟨{ localnode := some p }, ?_, rfl⟩
      simp only [linkPair, if_pos rfl]
      rw [hc, hps]
      simp
    · simp only [if_neg hps] at hp
      obtain ⟨cs', hc2, hb2⟩ := hw.1 p stp c' hp hc'
      have hcc : c' ≠ c := by
        intro he
        rw [he, hc] at hc2
        cases hc2
        rw [hcl] at hb2
        cases hb2
      refine ⟨cs', ?_, hb2⟩
      simp only [linkPair, if_neg hcc]
      exact hc2
  · intro d csd p hd hlp
    unfold linkPair at hd
    by_cases hdc : d = c
    · simp only [if_pos hdc, hdc, hc, Option.map_some'] at hd
      cases hd
      have hx : some s = some p := hlp
      cases hx
      refine ⟨{ st with node := some c }, ?_, by rw [hdc]⟩
      simp only [linkPair, if_pos rfl]
      rw [hs]
      simp
    · simp only [if_neg hdc] at hd
      obtain ⟨st', hp', hn'⟩ := hw.2 d csd p hd hlp
      have hps : p ≠ s := by
        intro he
        rw [he, hs] at hp'
        cases hp'
        rw [hsn] at hn'
        cases hn'
      refine ⟨st', ?_, hn'⟩
      simp only [linkPair, if_neg hps]
      exact hp'

theorem pairInv_dropCloud {w : PairWorld} (hw : PairInv w) {c : Nat}
    (hfree : ∀ cs, w.clouds c = some cs → cs.localnode = none) :
    PairInv { syncs := w.syncs,
              clouds := fun id => if id = c then none else w.clouds id } := by
  constructor
  · intro p stp c' hp hc'
    obtain ⟨cs', hc2, hb2⟩ := hw.1 p stp c' hp hc'
    have hcc : c' ≠ c := by
      intro he
      rw [he] at hc2
      rw [hfree cs' hc2] at hb2
      cases hb2
    refine ⟨cs', ?_, hb2⟩
    simp only [if_neg hcc]
    exact hc2
  · intro d csd p hd hlp
    by_cases hdc : d = c
    · simp only [if_pos hdc] at hd
      cases hd
    · simp only [if_neg hdc] at hd
      exact hw.2 d csd p hd hlp

theorem pairInv_dropSync {w : PairWorld} (hw : PairInv w) {s : Nat}
    (hfree : ∀ st, w.syncs s = some st → st.node = none) :
    PairInv { syncs := fun id => if id = s then none else w.syncs id,
              clouds := w.clouds } := by
  constructor
  · intro p stp c hp hc
    by_cases hps : p = s
    · simp only [if_pos hps] at hp
      cases hp
    · simp only [if_neg hps] at hp
      exact hw.1 p stp c hp hc
  · intro d csd p hd hlp
    obtain ⟨st', hp', hn'⟩ := hw.2 d csd p hd hlp
    have hps : p ≠ s := by
      intro he
      rw [he] at hp'
      rw [hfree st' hp'] at hn'
      cases hn'
    refine ⟨st', ?_, hn'⟩
    simp only [if_neg hps]
    exact hp'

theorem pairInv_setnodeLink {w2 : PairWorld} (hw : PairInv w2) (s c : Nat)
    (hfree : ∃ st, w2.syncs s = some st ∧ st.node = none) :
    PairInv (setnodeLink w2 s c) := by
  match hc2 : w2.clouds c with
  | none =>
    rw [setnodeLink_none hc2]
    exact hw
  | some cs2 =>
    rw [setnodeLink_some hc2]
    obtain ⟨st, hsst, hsn⟩ := hfree
    obtain ⟨st3, hs3, hn3, hd3⟩ := unlinkCloudSide_syncs_pres_none c hsst hsn
    obtain ⟨cs3, hc3, hcl3⟩ := unlinkCloudSide_clouds_self hc2
    exact pairInv_linkPair (pairInv_unlinkCloudSide hw c) hs3 hn3 hc3 hcl3

theorem pairInv_setnode {w : PairWorld} (hw : PairInv w) (s : Nat) (cnode : Option Nat) :
    PairInv (setnode w s cnode) := by
  match hs : w.syncs s with
  | none =>
    rw [setnode_absent cnode hs]
    exact hw
  | some st =>
    rw [setnode_go cnode hs]
    have hw1 := pairInv_setDeleted hw s false
    have hw2 := pairInv_unlinkSyncSide hw1 s
    match cnode with
    | none => exact hw2
    | some c =>
      refine pairInv_setnodeLink hw2 s c ?_
      have h5 := setDeleted_syncs_self false hs
      exact ⟨_, unlinkSyncSide_syncs_self h5, rfl⟩

theorem pairInv_destroyCloud {w : PairWorld} (hw : PairInv w) (c : Nat) :
    PairInv (destroyCloud w c) := by
  match hc : w.clouds c with
  | none =>
    rw [destroyCloud_none hc]
    exact hw
  | some cs =>
    rw [destroyCloud_go hc]
    match hl : cs.localnode with
    | none =>
      rw [destroyCloudGo_none hl]
      refine pairInv_dropCloud hw ?_
      intro cs' h
      rw [hc] at h
      cases h
      exact hl
    | some s =>
      rw [destroyCloudGo_some hl]
      have hw1 := pairInv_unlinkCloudSide (pairInv_setDeleted hw s true) c
      refine pairInv_dropCloud hw1 ?_
      intro cs' h
      have hcd : (setDeleted w s true).clouds c = some cs := hc
      obtain ⟨cs'', hc'', hcl''⟩ := unlinkCloudSide_clouds_self hcd
      rw [hc''] at h
      cases h
      exact hcl''

theorem pairInv_destroySync {w : PairWorld} (hw : PairInv w) (s : Nat) :
    PairInv (destroySync w s) := by
  match hs : w.syncs s with
  | none =>
    rw [destroySync_absent hs]
    exact hw
  | some st =>
    rw [destroySync_go hs]
    have hw1 := pairInv_unlinkSyncSide hw s
    refine pairInv_dropSync hw1 ?_
    intro st' h
    rw [unlinkSyncSide_syncs_self hs] at h
    cases h
    rfl

theorem pairInv_createSync {w : PairWorld} (hw : PairInv w) (s : Nat) :
    PairInv (createSync w s) := by
  unfold createSync
  match hs : w.syncs s with
  | some _ => exact hw
  | none =>
    constructor
    · intro p stp c hp hc
      by_cases hps : p = s
      · simp only [if_pos hps] at hp
        cases hp
        simp at hc
      · simp only [if_neg hps] at hp
        exact hw.1 p stp c hp hc
    · intro d csd p hd hlp
      obtain ⟨st', hp', hn'⟩ := hw.2 d csd p hd hlp
      have hps : p ≠ s := by
        intro he
        rw [he, hs] at hp'
        cases hp'
      refine ⟨st', ?_, hn'⟩
      simp only [if_neg hps]
      exact hp'

theorem pairInv_createCloud {w : PairWorld} (hw : PairInv w) (c : Nat) :
    PairInv (createCloud w c) := by
  unfold createCloud
  match hc : w.clouds c with
  | some _ => exact hw
  | none =>
    constructor
    · intro p stp c' hp hc'
      obtain ⟨cs', hc2, hb2⟩ := hw.1 p stp c' hp hc'
      have hcc : c' ≠ c := by
        intro he
        rw [he, hc] at hc2
        cases hc2
      refine ⟨cs', ?_, hb2⟩
      simp only [if_neg hcc]
      exact hc2
    · intro d csd p hd hlp
      by_cases hdc : d = c
      · simp only [if_pos hdc] at hd
        cases hd
        simp at hlp
      · simp only [if_neg hdc] at hd
        exact hw.2 d csd p hd hlp

theorem pairInv_run_from {w : PairWorld} (hw : PairInv w) (ops : List PairOp) :
    PairInv (ops.foldl pairStep w) := by
  induction ops generalizing w with
  | nil => exact hw
  | cons op rest ih =>
    refine ih ?_
    match op with
    | .createSync s => exact pairInv_createSync hw s
    | .createCloud c => exact pairInv_createCloud hw c
    | .setnode s cnode => exact pairInv_setnode hw s cnode
    | .destroyCloud c => exact pairInv_destroyCloud hw c
    | .destroySync s => exact pairInv_destroySync hw s

theorem pairInv_run (ops : List PairOp) : PairInv (pairRun ops) := by
  refine pairInv_run_from ⟨?_, ?_⟩ ops
  · intro p st c hp hc
    cases hp
  · intro d cs p hd hl
    cases hd

/-- C5: after any sequence of pairing operations from the empty state, the
bidirectional cross-reference invariant `PairInv` holds; pairing a live
LocalNode `s` with a live cloud Node `c` via `setnode` leaves `s` paired to
`c` with `deleted` cleared and `c` back-linking exactly `s`, and afterwards
`c` is the unique Node back-linking `s` and `s` the unique LocalNode pairing
`c` (any previous pairing on either side was cleared); destroying a paired
cloud Node removes it and leaves its LocalNode unpaired and marked deleted. -/
theorem setnode_pairing_invariant (ops : List PairOp) (s c : Nat)
    (st : SyncSt) (cs : CloudSt)
    (hs : (pairRun ops).syncs s = some st)
    (hc : (pairRun ops).clouds c = some cs) :
    PairInv (pairRun ops) ∧
    PairInv (setnode (pairRun ops) s (some c)) ∧
    (∃ st', (setnode (pairRun ops) s (some c)).syncs s = some st' ∧
      st'.node = some c ∧ st'.deleted = false) ∧
    (setnode (pairRun ops) s (some c)).clouds c = some { localnode := some s } ∧
    (∀ c' cs', (setnode (pairRun ops) s (some c)).clouds c' = some cs' →
      cs'.localnode = some s → c' = c) ∧
    (∀ s' st', (setnode (pairRun ops) s (some c)).syncs s' = some st' →
      st'.node = some c → s' = s) ∧
    (∀ s0, cs.localnode = some s0 →
      (destroyCloud (pairRun ops) c).clouds c = none ∧
      ∃ st0, (destroyCloud (pairRun ops) c).syncs s0 = some st0 ∧
        st0.node = none ∧ st0.deleted = true) := by
  have hw := pairInv_run ops
  have hinv2 : PairInv (setnode (pairRun ops) s (some c)) :=
    pairInv_setnode hw s (some c)
  have h1 := setDeleted_syncs_self false hs
  have h2 := unlinkSyncSide_syncs_self h1
  have hcd : (setDeleted (pairRun ops) s false).clouds c = some cs := hc
  obtain ⟨cs2, hc2⟩ := unlinkSyncSide_clouds_pres s hcd
  have hsn : setnode (pairRun ops) s (some c) =
      linkPair (unlinkCloudSide (unlinkSyncSide (setDeleted (pairRun ops) s false) s) c) s c := by
    rw [setnode_go (some c) hs]
    exact setnodeLink_some hc2
  obtain ⟨st3, hs3, hn3, hd3⟩ := unlinkCloudSide_syncs_pres_none c h2 rfl
  obtain ⟨cs3, hc3, hcl3⟩ := unlinkCloudSide_clouds_self hc2
  have hsync' : (setnode (pairRun ops) s (some c)).syncs s =
      some { st3 with node := some c } := by
    rw [hsn]
    simp only [linkPair, if_pos rfl]
    rw [hs3]
    simp
  have hcloud' : (setnode (pairRun ops) s (some c)).clouds c =
      some { localnode := some s } := by
    rw [hsn]
    simp only [linkPair, if_pos rfl]
    rw [hc3]
    simp
  refine ⟨hw, hinv2, ⟨{ st3 with node := some c }, hsync', rfl, hd3⟩, hcloud', ?_, ?_, ?_⟩
  · intro c' cs' hcs' hlink
    obtain ⟨stq, hq, hqn⟩ := hinv2.2 c' cs' s hcs' hlink
    rw [hsync'] at hq
    cases hq
    have hx : some c = some c' := hqn
    cases hx
    rfl
  · intro s' st'' hst'' hn''
    obtain ⟨csq, hcq, hcql⟩ := hinv2.1 s' st'' c hst'' hn''
    rw [hcloud'] at hcq
    cases hcq
    have hx : some s = some s' := hcql
    cases hx
    rfl
  · intro s0 hl0
    obtain ⟨st0, hs0, hn0⟩ := hw.2 c cs s0 hc hl0
    have hdc : destroyCloud (pairRun ops) c =
        { syncs := (unlinkCloudSide (setDeleted (pairRun ops) s0 true) c).syncs,
          clouds := fun id =>
            if id = c then none
            else (unlinkCloudSide (setDeleted (pairRun ops) s0 true) c).clouds id } := by
      rw [destroyCloud_go hc]
      exact destroyCloudGo_some hl0
    have hDs := setDeleted_syncs_self true hs0
    have hDc : (setDeleted (pairRun ops) s0 true).clouds c = some cs := hc
    have hD : (unlinkCloudSide (setDeleted (pairRun ops) s0 true) c).syncs s0 =
        some { node := none, deleted := true } := by
      rw [unlinkCloudSide_go hDc, unlinkCloudGo_some hl0]
      simp only [if_pos rfl]
      rw [hDs]
      simp
    constructor
    · rw [hdc]
      simp
    · refine ⟨{ node := none, deleted := true }, ?_, rfl, rfl⟩
      rw [hdc]
      exact hD

theorem setnode_pairing_invariant_witness :
    (pairRun [PairOp.createSync 1, PairOp.createCloud 7]).syncs 1 = some ⟨none, false⟩ ∧
    (pairRun [PairOp.createSync 1, PairOp.createCloud 7]).clouds 7 = some ⟨none⟩ ∧
    (∃ st', (setnode (pairRun [PairOp.createSync 1, PairOp.createCloud 7]) 1
        (some 7)).syncs 1 = some st' ∧ st'.node = some 7 ∧ st'.deleted = false) ∧
    (setnode (pairRun [PairOp.createSync 1, PairOp.createCloud 7]) 1 (some 7)).clouds 7
      = some { localnode := some 1 } := by
  have h := setnode_pairing_invariant [PairOp.createSync 1, PairOp.createCloud 7]
    1 7 ⟨none, false⟩ ⟨none⟩ rfl rfl
  exact ⟨rfl, rfl, h.2.2.1, h.2.2.2.1⟩

theorem dropWhile_length_le (p : Nat → Bool) (l : List Nat) :
    (l.dropWhile p).length ≤ l.length := by
  induction l with
  | nil => simp
  | cons b t ih =>
    rw [List.dropWhile_cons]
    by_cases h : p b
    · simp only [if_pos h]
      exact le_trans ih (by simp)
    · simp only [if_neg h]
      exact Nat.le_refl _

theorem drop_length_takeWhile (p : Nat → Bool) (l : List Nat) :
    l.drop (l.takeWhile p).length = l.dropWhile p := by
  induction l with
  | nil => rfl
  | cons b t ih =>
    rw [List.takeWhile_cons, List.dropWhile_cons]
    by_cases h : p b
    · simp only [if_pos h, List.length_cons, List.drop_succ_cons]
      exact ih
    · simp only [if_neg h, List.length_nil, List.drop_zero]

theorem takeWhile_nonzero_of_not_mem {nr : List Nat} (h : ¬ (0 : Nat) ∈ nr) :
    nr.takeWhile (fun x => decide (x ≠ 0)) = nr := by
  induction nr with
  | nil => rfl
  | cons b t ih =>
    rw [List.takeWhile_cons]
    have hb : b ≠ 0 := by
      intro he
      exact h (by simp [he])
    rw [if_pos (by simpa using hb)]
    rw [ih (by intro hm; exact h (by simp [hm]))]

theorem not_mem_takeWhile_zero (l : List Nat) :
    ¬ (0 : Nat) ∈ l.takeWhile (fun x => decide (x ≠ 0)) := by
  induction l with
  | nil => simp
  | cons b t ih =>
    rw [List.takeWhile_cons]
    by_cases h : b = 0
    · rw [if_neg (by simp [h])]
      simp
    · rw [if_pos (by simp [h])]
      simp only [List.mem_cons, not_or]
      exact ⟨fun he => h he.symm, ih⟩

/-- Embedding of the loop of `FileSystemAccess::normalize` (filesystem.cpp),
with the external `utf8proc_NFC` call as the oracle `nfc` (`none` = the call
returned null). A NUL byte is copied through one at a time; otherwise the
C string starting at the cursor — the maximal NUL-free run — is normalized,
its result appended (`result.append(normalized)` stops at a NUL), and the
cursor advanced by `strlen`. `none` here is the `filename->clear(); return`
path. -/
def normalizeGo (nfc : List Nat → Option (List Nat)) : List Nat → Option (List Nat)
  | [] => some []
  | b :: rest =>
    if b = 0 then (normalizeGo nfc rest).map (fun r => 0 :: r)
    else
      match nfc (b :: rest.takeWhile (fun x => decide (x ≠ 0))) with
      | none => none
      | some nr =>
        (normalizeGo nfc (rest.drop (rest.takeWhile (fun x => decide (x ≠ 0))).length)).map
          (fun r => nr.takeWhile (fun x => decide (x ≠ 0)) ++ r)
termination_by l => l.length
decreasing_by
· simp only [List.length_cons]
  omega
· simp only [List.length_drop, List.length_cons]
  omega

/-- Embedding of `FileSystemAccess::normalize` (filesystem.cpp): on a failed
`utf8proc_NFC` call the name is cleared. -/
def normalize (nfc : List Nat → Option (List Nat)) (name : List Nat) : List Nat :=
  match normalizeGo nfc name with
  | none => []
  | some r => r

/-- Spec-side: the maximal NUL-free segments of a name, in order. -/
def nulSegs : List Nat → List (List Nat)
  | [] => []
  | b :: rest =>
    if b = 0 then nulSegs rest
    else (b :: rest.takeWhile (fun x => decide (x ≠ 0))) ::
      nulSegs (rest.dropWhile (fun x => decide (x ≠ 0)))
termination_by l => l.length
decreasing_by
· simp only [List.length_cons]
  omega
· have := dropWhile_length_le (fun x => decide (x ≠ 0)) rest
  simp only [List.length_cons]
  omega

/-- Spec-side, following the spec's words: each maximal NUL-free segment is
rewritten to its composed form and every embedded NUL byte stays in place;
the whole operation fails only if normalizing some segment fails. -/
def specNormalize (nfc : List Nat → Option (List Nat)) : List Nat → Option (List Nat)
  | [] => some []
  | b :: rest =>
    if b = 0 then (specNormalize nfc rest).map (fun r => 0 :: r)
    else
      match nfc (b :: rest.takeWhile (fun x => decide (x ≠ 0))) with
      | none => none
      | some nr =>
        (specNormalize nfc (rest.dropWhile (fun x => decide (x ≠ 0)))).map
          (fun r => nr ++ r)
termination_by l => l.length
decreasing_by
· simp only [List.length_cons]
  omega
· have := dropWhile_length_le (fun x => decide (x ≠ 0)) rest
  simp only [List.length_cons]
  omega

theorem normalize_spec_aux (nfc : List Nat → Option (List Nat))
    (hout : ∀ l r, nfc l = some r → ¬ (0 : Nat) ∈ r) :
    ∀ n name, List.length name ≤ n →
      (∀ seg, seg ∈ nulSegs name → ∃ r, nfc seg = some r) →
      ∃ res, normalizeGo nfc name = some res ∧ specNormalize nfc name = some res ∧
        res.count 0 = name.count 0 := by
  intro n
  induction n with
  | zero =>
    intro name hlen hok
    have hnil : name = [] := List.eq_nil_of_length_eq_zero (Nat.le_zero.mp hlen)
    subst hnil
    exact ⟨[], by simp [normalizeGo], by simp [specNormalize], rfl⟩
  | succ n ih =>
    intro name hlen hok
    match name with
    | [] => exact ⟨[], by simp [normalizeGo], by simp [specNormalize], rfl⟩
    | b :: rest =>
      by_cases hb : b = 0
      · subst hb
        have hok' : ∀ seg, seg ∈ nulSegs rest → ∃ r, nfc seg = some r := by
          intro seg hseg
          refine hok seg ?_
          rw [nulSegs]
          simpa using hseg
        obtain ⟨res, h1, h2, h3⟩ := ih rest (by simp only [List.length_cons] at hlen; omega) hok'
        refine ⟨0 :: res, ?_, ?_, ?_⟩
        · rw [normalizeGo]
          simp [h1]
        · rw [specNormalize]
          simp [h2]
        · simp only [List.count_cons]
          omega
      · have hseg0 : (b :: rest.takeWhile (fun x => decide (x ≠ 0)))
            ∈ nulSegs (b :: rest) := by
          rw [nulSegs]
          simp [hb]
        obtain ⟨nr, hnr⟩ := hok _ hseg0
        have hnrfree := hout _ _ hnr
        have htake : nr.takeWhile (fun x => decide (x ≠ 0)) = nr :=
          takeWhile_nonzero_of_not_mem hnrfree
        have hdropeq : rest.drop (rest.takeWhile (fun x => decide (x ≠ 0))).length
            = rest.dropWhile (fun x => decide (x ≠ 0)) :=
          drop_length_takeWhile (fun x => decide (x ≠ 0)) rest
        have hok' : ∀ seg, seg ∈ nulSegs (rest.dropWhile (fun x => decide (x ≠ 0))) →
            ∃ r, nfc seg = some r := by
          intro seg hsegm
          refine hok seg ?_
          rw [nulSegs]
          simp only [if_neg hb, List.mem_cons]
          exact Or.inr hsegm
        have hlen' : (rest.dropWhile (fun x => decide (x ≠ 0))).length ≤ n := by
          have hd := dropWhile_length_le (fun x => decide (x ≠ 0)) rest
          simp only [List.length_cons] at hlen
          omega
        obtain ⟨res, h1, h2, h3⟩ := ih _ hlen' hok'
        refine ⟨nr ++ res, ?_, ?_, ?_⟩
        · rw [normalizeGo]
          simp only [if_neg hb, hnr]
          rw [hdropeq, h1]
          simp only [Option.map_some', htake]
        · rw [specNormalize]
          simp only [if_neg hb, hnr]
          rw [h2]
          simp
        · have hcnr : nr.count 0 = 0 := List.count_eq_zero.mpr hnrfree
          have hsegz : (rest.takeWhile (fun x => decide (x ≠ 0))).count 0 = 0 :=
            List.count_eq_zero.mpr (not_mem_takeWhile_zero rest)
          have hsplit : rest.count 0 =
              (rest.takeWhile (fun x => decide (x ≠ 0))).count 0 +
              (rest.dropWhile (fun x => decide (x ≠ 0))).count 0 := by
            conv_lhs =>
              rw [← List.takeWhile_append_dropWhile (fun x => decide (x ≠ 0)) rest]
            rw [List.count_append]
          have hbcount : List.count 0 (b :: rest) = List.count 0 rest := by
            rw [List.count_cons]
            simpa using hb
          rw [List.count_append, hcnr, h3, hbcount, hsplit, hsegz]

/-- C9: with the external `utf8proc_NFC` as an oracle whose outputs are
NUL-free C strings, a name whose maximal NUL-free segments all normalize
successfully is never cleared: `normalize` succeeds and its result is
exactly the spec-side rewriting — each maximal NUL-free segment replaced by
its composed form with every embedded NUL byte preserved in place (in
particular the NUL count is unchanged). -/
theorem normalize_preserves_nuls (nfc : List Nat → Option (List Nat)) (name : List Nat)
    (hout : ∀ l r, nfc l = some r → ¬ (0 : Nat) ∈ r)
    (hok : ∀ seg, seg ∈ nulSegs name → ∃ r, nfc seg = some r) :
    ∃ res, normalizeGo nfc name = some res ∧ normalize nfc name = res ∧
      specNormalize nfc name = some res ∧ res.count 0 = name.count 0 := by
  obtain ⟨res, h1, h2, h3⟩ := normalize_spec_aux nfc hout name.length name (le_refl _) hok
  refine ⟨res, h1, ?_, h2, h3⟩
  rw [normalize, h1]

theorem normalize_preserves_nuls_witness :
    ∃ res,
      normalizeGo (fun l => some (l.filter (fun x => decide (x ≠ 0)))) [97, 0, 98]
        = some res ∧
      normalize (fun l => some (l.filter (fun x => decide (x ≠ 0)))) [97, 0, 98] = res ∧
      specNormalize (fun l => some (l.filter (fun x => decide (x ≠ 0)))) [97, 0, 98]
        = some res ∧
      res.count 0 = List.count 0 [97, 0, 98] := by
  refine normalize_preserves_nuls (fun l => some (l.filter (fun x => decide (x ≠ 0))))
    [97, 0, 98] ?_ ?_
  · intro l r h
    cases h
    simp
  · intro seg hseg
    exact ⟨_, rfl⟩

/-- Modelled from the spec: `CacheableWriter` emits fixed-width fields as
little-endian bytes; `bytesLE k v` is the `k`-byte little-endian encoding of
`v` (truncating to `k` bytes as the C memory write does). -/
def bytesLE : Nat → Nat → List Nat
  | 0, _ => []
  | k + 1, v => v % 256 :: bytesLE k (v / 256)

/-- Modelled from the spec: little-endian decoding of a byte buffer, as the
`CacheableReader` memory reads do. -/
def fromLE : List Nat → Nat
  | [] => 0
  | b :: t => b % 256 + 256 * fromLE t

/-- Modelled from the spec: `serializei64` stores the 64-bit two's complement
of the value. -/
def enc64 (v : Int) : List Nat :=
  bytesLE 8 (v % (2 : Int) ^ 64).toNat

/-- Modelled from the spec: `unserializei64` reinterprets 8 bytes as a signed
64-bit value. -/
def dec64 (bs : List Nat) : Int :=
  if fromLE bs < 2 ^ 63 then (fromLE bs : Int) else (fromLE bs : Int) - 2 ^ 64

/-- Number of bytes `serializecompressed64` emits for a value: bytes are
peeled off until the value is exhausted. -/
def compLen : Nat → Nat
  | 0 => 0
  | v + 1 => 1 + compLen ((v + 1) / 256)
termination_by v => v
decreasing_by
  omega

/-- Modelled from the spec: `serializecompressed64` stores a count byte
followed by that many little-endian payload bytes. -/
def comp64 (v : Nat) : List Nat :=
  compLen v :: bytesLE (compLen v) v

/-- Modelled from the spec: a bounds-checked read of `k` raw bytes. -/
def readBytes (k : Nat) (d : List Nat) : Option (List Nat × List Nat) :=
  if k ≤ d.length then some (d.take k, d.drop k) else none

/-- Modelled from the spec: a bounds-checked little-endian read of a `k`-byte
unsigned field. -/
def readU (k : Nat) (d : List Nat) : Option (Nat × List Nat) :=
  (readBytes k d).map (fun p => (fromLE p.1, p.2))

/-- Modelled from the spec: `unserializestring`/`unserializecstr` — a 16-bit
length prefix followed by that many bytes. -/
def readString16 (d : List Nat) : Option (List Nat × List Nat) :=
  match readU 2 d with
  | none => none
  | some (len, d1) => readBytes len d1

/-- Modelled from the spec: `unserializecompressed64` — a count byte then
that many little-endian payload bytes, assembled into a 64-bit value. -/
def readComp64 (d : List Nat) : Option (Nat × List Nat) :=
  match d with
  | [] => none
  | c :: d1 =>
    match readU (c % 256) d1 with
    | none => none
    | some (v, d2) => some (v % 2 ^ 64, d2)

/-- Modelled from the spec: `unserializeexpansionflags` with one used field —
8 bytes are consumed, the unused seven must be zero, and the first flag is
returned. -/
def readFlags (d : List Nat) : Option (Nat × List Nat) :=
  match readBytes 8 d with
  | none => none
  | some (fs, d1) =>
    if (fs.drop 1).all (fun b => b % 256 == 0) then some (byteAt fs 0 % 256, d1)
    else none

/-- The record a LocalNode's cache row carries (node.cpp): type and size,
fsid, parent dbid, paired cloud-node handle, local name, fingerprint crc and
mtime for files, syncable flag, and the optional short name. -/
structure LocalNodeRec where
  type : Nat
  size : Int
  fsid : Nat
  parent_dbid : Nat
  handle : Nat
  localname : List Nat
  crc : List Nat
  mtime : Nat
  syncable : Bool
  shortname : Option (List Nat)
deriving DecidableEq

/-- Modelled from the spec: `serializepstr` — a null pointer serializes as a
16-bit zero length, a present string as its length and bytes. -/
def pstrBytes : Option (List Nat) → List Nat
  | none => [0, 0]
  | some s => bytesLE 2 s.length ++ s

/-- The short-name string `unserialize` ends up with: empty when absent. -/
def pstrName : Option (List Nat) → List Nat
  | none => []
  | some s => s

/-- Embedding of `LocalNode::serialize` (node.cpp): type/size combo as an
i64, fsid as an 8-byte handle, parent dbid as a u32, paired handle as a
6-byte nodehandle, the local name with a 16-bit length, for file nodes the
16 raw crc bytes and the compressed mtime, the syncable byte, one expansion
flag announcing the short-name field, and the short name as a pstr (a null
pointer serializes as length zero). -/
def serialize (r : LocalNodeRec) : List Nat :=
  enc64 (if r.type ≠ 0 then -(r.type : Int) else r.size) ++
  (bytesLE 8 r.fsid ++
  (bytesLE 4 r.parent_dbid ++
  (bytesLE 6 r.handle ++
  (bytesLE 2 r.localname.length ++
  (r.localname ++
  ((if r.type = 0 then r.crc ++ comp64 r.mtime else []) ++
  ((if r.syncable then 1 else 0) ::
  ([1, 0, 0, 0, 0, 0, 0, 0] ++ pstrBytes r.shortname))))))))

/-- Embedding of `LocalNode::unserialize` (node.cpp): the fixed-header length
guard (8+8+4+6+2 bytes) then the field reads in source order with the
source's short-circuiting — file-only fields only for FILENODE, syncable and
expansion flags only when data remains, the short name only when the first
expansion flag is set; a negative type/size combo at least `-FOLDERNODE`
selects FOLDERNODE with size zero, anything else is a FILENODE. -/
def unserialize (d : List Nat) : Option LocalNodeRec :=
  if d.length < 8 + 8 + 4 + 6 + 2 then none
  else
    match readBytes 8 d with
    | none => none
    | some (szb, d1) =>
      match readU 8 d1 with
      | none => none
      | some (fsid, d2) =>
        match readU 4 d2 with
        | none => none
        | some (pd, d3) =>
          match readU 6 d3 with
          | none => none
          | some (h, d4) =>
            match readString16 d4 with
            | none => none
            | some (lname, d5) =>
              match (if dec64 szb < 0 ∧ -1 ≤ dec64 szb
                  then some (List.replicate 16 0, d5) else readBytes 16 d5) with
              | none => none
              | some (crc, d6) =>
                match (if dec64 szb < 0 ∧ -1 ≤ dec64 szb
                    then some ((0 : Nat), d6) else readComp64 d6) with
                | none => none
                | some (mt, d7) =>
                  match (if d7 ≠ [] then readU 1 d7 else some (1, d7)) with
                  | none => none
                  | some (sy, d8) =>
                    match (if d8 ≠ [] then readFlags d8 else some (0, d8)) with
                    | none => none
                    | some (fl0, d9) =>
                      match (if fl0 ≠ 0 then readString16 d9 else some ([], d9)) with
                      | none => none
                      | some (sname, _) =>
                        some { type := if dec64 szb < 0 ∧ -1 ≤ dec64 szb
                                 then (-dec64 szb).toNat else 0,
                               size := if dec64 szb < 0 ∧ -1 ≤ dec64 szb
                                 then 0 else dec64 szb,
                               fsid := fsid,
                               parent_dbid := pd,
                               handle := h,
                               localname := lname,
                               crc := crc,
                               mtime := mt,
                               syncable := decide (sy % 256 = 1),
                               shortname := if sname = [] then none else some sname }

/-- Valid state of a LocalNode for caching: a real FILENODE or FOLDERNODE,
a size that fits a nonnegative int64 (zero for folders), fields within their
serialized widths, a 16-byte crc (zeroed, like the mtime, for folders), and
a short name that is only stored when nonempty. -/
abbrev wellFormedLN (r : LocalNodeRec) : Prop :=
  (r.type = 0 ∨ r.type = 1) ∧
  0 ≤ r.size ∧ r.size < 2 ^ 63 ∧
  (r.type = 1 → r.size = 0) ∧
  r.fsid < 2 ^ 64 ∧
  r.parent_dbid < 2 ^ 32 ∧
  r.handle < 2 ^ 48 ∧
  r.localname.length < 2 ^ 16 ∧
  r.crc.length = 16 ∧
  r.mtime < 2 ^ 64 ∧
  (r.type = 1 → r.crc = List.replicate 16 0 ∧ r.mtime = 0) ∧
  (match r.shortname with
   | none => True
   | some s => s ≠ [] ∧ s.length < 2 ^ 16)

theorem bytesLE_length (k v : Nat) : (bytesLE k v).length = k := by
  induction k generalizing v with
  | zero => rfl
  | succ k ih =>
    rw [bytesLE]
    simp [ih]

theorem enc64_length (v : Int) : (enc64 v).length = 8 :=
  bytesLE_length 8 _

theorem fromLE_bytesLE (k v : Nat) : fromLE (bytesLE k v) = v % 256 ^ k := by
  induction k generalizing v with
  | zero =>
    simp [bytesLE, fromLE]
    omega
  | succ k ih =>
    rw [bytesLE, fromLE, ih]
    rw [pow_succ']
    rw [Nat.mod_mul]
    simp [Nat.mod_mod_of_dvd]

theorem readBytes_exact {l : List Nat} {k : Nat} (hk : l.length = k) (rest : List Nat) :
    readBytes k (l ++ rest) = some (l, rest) := by
  subst hk
  unfold readBytes
  rw [if_pos (by simp)]
  rw [List.take_left, List.drop_left]

theorem readU_exact (k v : Nat) (rest : List Nat) :
    readU k (bytesLE k v ++ rest) = some (v % 256 ^ k, rest) := by
  unfold readU
  rw [readBytes_exact (bytesLE_length k v) rest]
  simp [fromLE_bytesLE]

theorem readU_one (b : Nat) (rest : List Nat) :
    readU 1 (b :: rest) = some (b % 256, rest) := by
  unfold readU readBytes
  simp [fromLE]

theorem pow256_2 : (256 : Nat) ^ 2 = 2 ^ 16 := by norm_num
theorem pow256_4 : (256 : Nat) ^ 4 = 2 ^ 32 := by norm_num
theorem pow256_6 : (256 : Nat) ^ 6 = 2 ^ 48 := by norm_num
theorem pow256_8 : (256 : Nat) ^ 8 = 2 ^ 64 := by norm_num

theorem readString16_exact {s : List Nat} (h : s.length < 2 ^ 16) (rest : List Nat) :
    readString16 (bytesLE 2 s.length ++ (s ++ rest)) = some (s, rest) := by
  unfold readString16
  rw [readU_exact]
  have hm : s.length % 256 ^ 2 = s.length := Nat.mod_eq_of_lt (by rw [pow256_2]; omega)
  simp only [hm]
  exact readBytes_exact rfl rest

theorem readString16_exact' {s : List Nat} (h : s.length < 2 ^ 16) :
    readString16 (bytesLE 2 s.length ++ s) = some (s, []) := by
  have h2 := readString16_exact h []
  simpa using h2

theorem compLen_spec (v : Nat) : v < 256 ^ compLen v := by
  induction v using Nat.strong_induction_on with
  | _ v ih =>
    match v with
    | 0 => simp [compLen]
    | w + 1 =>
      rw [compLen]
      have ihd := ih ((w + 1) / 256) (by omega)
      rw [pow_add, pow_one]
      generalize 256 ^ compLen ((w + 1) / 256) = P at ihd ⊢
      omega

theorem compLen_le_of_lt {v k : Nat} (h : v < 256 ^ k) : compLen v ≤ k := by
  induction v using Nat.strong_induction_on generalizing k with
  | _ v ih =>
    match v with
    | 0 => simp [compLen]
    | w + 1 =>
      rw [compLen]
      match k with
      | 0 => simp at h
      | k + 1 =>
        have hd : (w + 1) / 256 < 256 ^ k := by
          rw [Nat.div_lt_iff_lt_mul (by omega)]
          rw [pow_add, pow_one] at h
          omega
        have := ih ((w + 1) / 256) (by omega) hd
        omega

theorem readComp64_exact {v : Nat} (h : v < 2 ^ 64) (rest : List Nat) :
    readComp64 (comp64 v ++ rest) = some (v, rest) := by
  unfold comp64 readComp64
  simp only [List.cons_append]
  have hc8 : compLen v ≤ 8 := compLen_le_of_lt (by rw [pow256_8]; omega)
  have hcm : compLen v % 256 = compLen v := Nat.mod_eq_of_lt (by omega)
  rw [hcm, readU_exact]
  have hv : v % 256 ^ compLen v = v := Nat.mod_eq_of_lt (compLen_spec v)
  simp only [hv]
  rw [Nat.mod_eq_of_lt h]

theorem readFlags_exact (rest : List Nat) :
    readFlags (1 :: 0 :: 0 :: 0 :: 0 :: 0 :: 0 :: 0 :: rest) = some (1, rest) := by
  have h := readBytes_exact (show ([1, 0, 0, 0, 0, 0, 0, 0] : List Nat).length = 8 from rfl) rest
  unfold readFlags
  simp only [List.cons_append, List.nil_append] at h
  rw [h]
  simp [byteAt]

theorem dec64_enc64_nonneg {v : Int} (h0 : 0 ≤ v) (h1 : v < 2 ^ 63) :
    dec64 (enc64 v) = v := by
  unfold dec64 enc64
  have hm : v % (2 : Int) ^ 64 = v := Int.emod_eq_of_lt h0 (by omega)
  rw [hm, fromLE_bytesLE]
  have hlt : v.toNat < 256 ^ 8 := by rw [pow256_8]; omega
  rw [Nat.mod_eq_of_lt hlt]
  rw [if_pos (by omega)]
  omega

theorem dec64_enc64_neg1 : dec64 (enc64 (-1)) = -1 := by decide

theorem readEnc64 (v : Int) (rest : List Nat) :
    readBytes 8 (enc64 v ++ rest) = some (enc64 v, rest) :=
  readBytes_exact (enc64_length v) rest

theorem readPstr (sn : Option (List Nat))
    (h : match sn with | none => True | some s => s ≠ [] ∧ s.length < 2 ^ 16) :
    readString16 (pstrBytes sn) = some (pstrName sn, []) ∧
    (if pstrName sn = [] then none else some (pstrName sn)) = sn := by
  match sn with
  | none => exact ⟨by decide, by simp [pstrName]⟩
  | some s =>
    obtain ⟨hne, hlen⟩ := h
    exact ⟨readString16_exact' hlen, by simp only [pstrName]; rw [if_neg hne]⟩

/-- C3: for every well-formed LocalNode record, `serialize` followed by
`unserialize` succeeds and reproduces the record exactly — type, size, fsid,
parent dbid, paired cloud-node handle, local name, short name (via the
trailing expansion flag), syncable flag, and for file nodes the fingerprint
crc and mtime; and `unserialize` of data shorter than the fixed 28-byte
header fails by returning null. -/
theorem serialize_unserialize_roundtrip (r : LocalNodeRec) (hwf : wellFormedLN r)
    (d : List Nat) (hshort : d.length < 28) :
    unserialize (serialize r) = some r ∧ unserialize d = none := by
  constructor
  · obtain ⟨ty, sz, fs, pd, hd, ln, crcl, mt, syb, sn⟩ := r
    obtain ⟨htyor, hsz0, hsz1, hfsz, hfsid, hpd, hh, hln, hcrc, hmt, hfold, hshortn⟩ := hwf
    have hsz0' : (0 : Int) ≤ sz := hsz0
    have hsz1' : sz < 2 ^ 63 := hsz1
    have hln' : ln.length < 2 ^ 16 := hln
    have hcrc' : crcl.length = 16 := hcrc
    have hmt' : mt < 2 ^ 64 := hmt
    have hfsidm : fs % 256 ^ 8 = fs := Nat.mod_eq_of_lt (by rw [pow256_8]; exact hfsid)
    have hpdm : pd % 256 ^ 4 = pd := Nat.mod_eq_of_lt (by rw [pow256_4]; exact hpd)
    have hhm : hd % 256 ^ 6 = hd := Nat.mod_eq_of_lt (by rw [pow256_6]; exact hh)
    have hsyval : decide ((if syb then (1 : Nat) else 0) % 256 % 256 = 1) = syb := by
      cases syb <;> norm_num
    have hne1 : ∀ (b : Nat) (X : List Nat) {α : Type} (a c : α),
        (if b :: X ≠ [] then a else c) = a := by
      intro b X α a c
      exact if_pos (by simp)
    have hne2 : ∀ {α : Type} (a c : α), (if (1 : Nat) ≠ 0 then a else c) = a := by
      intro α a c
      exact if_pos (by omega)
    obtain ⟨hreadps, hsnback⟩ := readPstr sn hshortn
    rcases htyor with hty | hty
    · have hty' : ty = 0 := hty
      subst hty'
      have hdec0 : dec64 (enc64 sz) = sz := dec64_enc64_nonneg hsz0' hsz1'
      have hifneg : ∀ {α : Type} (a c : α), (if sz < 0 ∧ -1 ≤ sz then a else c) = c :=
        fun a c => if_neg (by omega)
      have hser : serialize ⟨0, sz, fs, pd, hd, ln, crcl, mt, syb, sn⟩ =
          enc64 sz ++ (bytesLE 8 fs ++ (bytesLE 4 pd ++ (bytesLE 6 hd ++
            (bytesLE 2 ln.length ++ (ln ++ (crcl ++ (comp64 mt ++
            ((if syb then 1 else 0) ::
              (1 :: 0 :: 0 :: 0 :: 0 :: 0 :: 0 :: 0 :: pstrBytes sn))))))))) := by
        simp [serialize]
      rw [hser]
      have hlen : ¬ ((enc64 sz ++ (bytesLE 8 fs ++ (bytesLE 4 pd ++ (bytesLE 6 hd ++
          (bytesLE 2 ln.length ++ (ln ++ (crcl ++ (comp64 mt ++
          ((if syb then 1 else 0) ::
            (1 :: 0 :: 0 :: 0 :: 0 :: 0 :: 0 :: 0 :: pstrBytes sn)))))))))).length
          < 8 + 8 + 4 + 6 + 2) := by
        simp only [List.length_append, List.length_cons, enc64_length, bytesLE_length]
        omega
      unfold unserialize
      rw [if_neg hlen]
      simp only [readEnc64, readU_exact, readU_one, readBytes_exact hcrc',
        readString16_exact hln', readComp64_exact hmt', readFlags_exact, hreadps,
        hdec0, hifneg, hfsidm, hpdm, hhm, hsyval, hsnback, hne1, hne2]
    · have hty' : ty = 1 := hty
      subst hty'
      have hsz' : sz = 0 := hfsz rfl
      subst hsz'
      obtain ⟨hcrcz, hmtz⟩ : crcl = List.replicate 16 0 ∧ mt = 0 := hfold rfl
      subst hcrcz
      subst hmtz
      have hifpos : ∀ {α : Type} (a c : α),
          (if (-1 : Int) < 0 ∧ -1 ≤ (-1 : Int) then a else c) = a :=
        fun a c => if_pos (by omega)
      have hser : serialize ⟨1, 0, fs, pd, hd, ln, List.replicate 16 0, 0, syb, sn⟩ =
          enc64 (-1) ++ (bytesLE 8 fs ++ (bytesLE 4 pd ++ (bytesLE 6 hd ++
            (bytesLE 2 ln.length ++ (ln ++
            ((if syb then 1 else 0) ::
              (1 :: 0 :: 0 :: 0 :: 0 :: 0 :: 0 :: 0 :: pstrBytes sn))))))) := by
        simp [serialize]
      rw [hser]
      have hlen : ¬ ((enc64 (-1) ++ (bytesLE 8 fs ++ (bytesLE 4 pd ++ (bytesLE 6 hd ++
          (bytesLE 2 ln.length ++ (ln ++
          ((if syb then 1 else 0) ::
            (1 :: 0 :: 0 :: 0 :: 0 :: 0 :: 0 :: 0 :: pstrBytes sn)))))))).length
          < 8 + 8 + 4 + 6 + 2) := by
        simp only [List.length_append, List.length_cons, enc64_length, bytesLE_length]
        omega
      unfold unserialize
      rw [if_neg hlen]
      simp only [readEnc64, readU_exact, readU_one, readString16_exact hln',
        readFlags_exact, hreadps, dec64_enc64_neg1, hifpos, hfsidm, hpdm, hhm,
        hsyval, hsnback, hne1, hne2]
      norm_num
  · unfold unserialize
    rw [if_pos (by omega)]

theorem serialize_unserialize_roundtrip_witness :
    wellFormedLN ⟨0, 5, 7, 3, 9, [97], List.replicate 16 0, 600, true, some [98]⟩ ∧
    List.length [1, 2, 3] < 28 ∧
    unserialize (serialize ⟨0, 5, 7, 3, 9, [97], List.replicate 16 0, 600, true, some [98]⟩)
      = some ⟨0, 5, 7, 3, 9, [97], List.replicate 16 0, 600, true, some [98]⟩ ∧
    unserialize [1, 2, 3] = none := by
  have h := serialize_unserialize_roundtrip
    ⟨0, 5, 7, 3, 9, [97], List.replicate 16 0, 600, true, some [98]⟩ (by decide)
    [1, 2, 3] (by decide)
  exact ⟨by decide, by decide, h.1, h.2⟩

end MegaSync
